import Mathlib

/-!
Verification of the numbat dimensional-algebra core (quantity.rs, unit.rs,
decorator.rs) against its specification.  The Rust sources are shallowly
embedded below: pure functions become Lean functions, machine rationals
(num_rational Ratio of i128) become ℚ, Rust String becomes List Char (so that
comparisons compute inside the kernel; the order is the same lexicographic
order), and fallible code returns an explicit result type.  Points where the
Rust code can panic on rational division by zero are modelled with total
division (x / 0 = 0) and noted at the definition.
-/

set_option allowUnsafeReducibility true
attribute [semireducible] Rat.add Rat.mul Rat.inv Rat.sub Rat.div Rat.neg

set_option maxRecDepth 100000

namespace Numbat

/-- Modelled from the spec: unit names are Rust String values (owned by the
missing registry layer); we embed them as their character lists so that the
lexicographic order and equality compute in the kernel. -/
abbrev UName := List Char

/-- Modelled from the spec: the type of the missing file prefix.rs.  A tagged
value, one of Metric(n) or Binary(n); none denotes the metric exponent 0.
Spelled Pfx here. -/
inductive Pfx where
  | metric (n : ℤ)
  | binary (n : ℤ)
deriving DecidableEq

/-- Modelled from the spec: Prefix::none() is the empty (metric 0) prefix. -/
def Pfx.noPfx : Pfx := .metric 0

/-- Modelled from the spec: the numeric factor of a prefix, 10^n metric or
2^(10 n) binary. -/
def Pfx.factor : Pfx → ℚ
  | .metric n => (10 : ℚ) ^ n
  | .binary n => (2 : ℚ) ^ (10 * n)

/-- Order key of a prefix: the derived Rust order puts Metric before Binary,
then compares the payload. -/
def Pfx.key : Pfx → Lex (Bool × ℤ)
  | .metric n => toLex (false, n)
  | .binary n => toLex (true, n)

/-- An identifier that is statically known to be a base unit (the factors of a
stored base expression; invariant 2 of the spec says derived base expressions
contain only Base factors). -/
structure BaseUnitId where
  name : UName
  canonicalName : UName
deriving DecidableEq

/-- A factor of a stored base expression: (prefix, base identifier, exponent). -/
structure BaseFactor where
  pfx : Pfx
  unit_id : BaseUnitId
  exponent : ℚ
deriving DecidableEq

/-- UnitKind from unit.rs: a unit is a base unit or is derived from a base
expression with a conversion factor. -/
inductive UnitKind where
  | base
  | derived (factor : ℚ) (baseUnit : List BaseFactor)
deriving DecidableEq

/-- UnitIdentifier from unit.rs. -/
structure UnitIdentifier where
  name : UName
  canonicalName : UName
  kind : UnitKind
deriving DecidableEq

/-- UnitFactor from unit.rs: (prefix, identifier, rational exponent). -/
structure UnitFactor where
  pfx : Pfx
  unit_id : UnitIdentifier
  exponent : ℚ
deriving DecidableEq

/-- A unit is a product of unit factors, represented by its factor list
(Product of UnitFactor in the Rust source). -/
abbrev Unit := List UnitFactor

/-- Truncating conversion of a rational to an integer, as num_rational
Ratio::to_integer (rounds toward zero). -/
def ratTrunc (q : ℚ) : ℤ := Int.tdiv q.num q.den

/-! ### Canonicalization of base expressions

Modelled from the spec (product.rs is not under src/): canonicalize is a
stable sort by merge key, then a fold of runs of equal merge keys via merge
(summing exponents), then dropping trivial (zero-exponent) factors, then a
stable sort by the natural factor ordering.  The spec demands that the result
be deterministic and idempotent and that canonical forms have at most one
factor per merge key; the Rust orders (identifier order compares sort keys
only) are therefore refined here by structural components placed after all
components the Rust code compares. -/

/-- Merge-key order key of a base-expression factor: prefix first, then the
identifier (whose Rust order is its sort key, for a base unit the name),
refined by the canonical name. -/
def BaseFactor.mkey (f : BaseFactor) : Lex ((Lex (Bool × ℤ)) × Lex (UName × UName)) :=
  toLex (f.pfx.key, toLex (f.unit_id.name, f.unit_id.canonicalName))

/-- Natural order key of a base-expression factor: identifier (sort key, i.e.
name) first, then prefix, then exponent, refined by the canonical name. -/
def BaseFactor.nkey (f : BaseFactor) :
    Lex (UName × Lex ((Lex (Bool × ℤ)) × Lex (ℚ × UName))) :=
  toLex (f.unit_id.name, toLex (f.pfx.key, toLex (f.exponent, f.unit_id.canonicalName)))

def bMergeLE (a b : BaseFactor) : Prop := a.mkey ≤ b.mkey

instance : DecidableRel bMergeLE := fun a b =>
  inferInstanceAs (Decidable (a.mkey ≤ b.mkey))

def bNatLE (a b : BaseFactor) : Prop := a.nkey ≤ b.nkey

instance : DecidableRel bNatLE := fun a b =>
  inferInstanceAs (Decidable (a.nkey ≤ b.nkey))

/-- Helper of bMergeRuns carrying the factor currently being merged. -/
def bMergeRunsGo (f : BaseFactor) : List BaseFactor → List BaseFactor
  | [] => [f]
  | g :: t =>
    if f.pfx = g.pfx ∧ f.unit_id = g.unit_id then
      bMergeRunsGo { f with exponent := f.exponent + g.exponent } t
    else
      f :: bMergeRunsGo g t

/-- Fold runs of structurally equal merge keys by merging (summing exponents,
keeping the first factor's prefix and identifier), in a base expression. -/
def bMergeRuns : List BaseFactor → List BaseFactor
  | [] => []
  | f :: t => bMergeRunsGo f t

/-- Canonicalization of a base expression. -/
def canonBase (l : List BaseFactor) : List BaseFactor :=
  ((bMergeRuns (l.insertionSort bMergeLE)).filter
    fun f => decide (f.exponent ≠ 0)).insertionSort bNatLE

/-- UnitIdentifier::sort_key from unit.rs.  A base unit yields its own name
with exponent one; a derived unit flattens its canonicalized base expression
to (base name, exponent) pairs, flips all signs if the first exponent is
negative, multiplies every exponent by the product of all numerators (the
code uses numer(), see the claim C5 analysis), and divides by the gcd of the
truncated exponents.  Where the Rust code would panic on a rational division
by zero the model divides totally (x / 0 = 0). -/
def UnitIdentifier.sort_key (id : UnitIdentifier) : List (UName × ℚ) :=
  match id.kind with
  | .base => [(id.name, (1 : ℚ))]
  | .derived _ baseUnit =>
    let key0 : List (UName × ℚ) :=
      (canonBase baseUnit).map fun f => (f.unit_id.name, f.exponent)
    match key0 with
    | [] => []
    | p0 :: rest0 =>
      let key1 :=
        if p0.2 < 0 then (p0 :: rest0).map (fun q => (q.1, -q.2)) else p0 :: rest0
      let factor : ℤ := (key1.map fun q => q.2.num).prod
      let key2 := key1.map fun q => (q.1, q.2 * (factor : ℚ))
      let cd : ℤ :=
        match key2 with
        | [] => 1
        | q0 :: qrest => qrest.foldl (fun c q => (Int.gcd c (ratTrunc q.2) : ℤ)) (ratTrunc q0.2)
      key2.map fun q => (q.1, q.2 / (cd : ℚ))

/-! ### Canonicalization of units -/

/-- Order encoding of a base-expression factor, by prefix, name, canonical
name and exponent. -/
def BaseFactor.enc (f : BaseFactor) :
    Lex ((Lex (Bool × ℤ)) × Lex (UName × Lex (UName × ℚ))) :=
  toLex (f.pfx.key, toLex (f.unit_id.name, toLex (f.unit_id.canonicalName, f.exponent)))

/-- Order encoding of a unit kind: base units before derived ones, then the
conversion factor and the stored base expression. -/
def UnitKind.enc : UnitKind →
    Lex (Bool × Lex (ℚ × List (Lex ((Lex (Bool × ℤ)) × Lex (UName × Lex (UName × ℚ))))))
  | .base => toLex (false, toLex (0, []))
  | .derived c b => toLex (true, toLex (c, b.map BaseFactor.enc))

/-- Structural order key of a unit identifier (used only to refine ties the
Rust order leaves unresolved): name, canonical name, kind. -/
def UnitIdentifier.structKey (id : UnitIdentifier) :
    Lex (UName × Lex (UName × Lex (Bool × Lex (ℚ × List (Lex ((Lex (Bool × ℤ)) × Lex (UName × Lex (UName × ℚ)))))))) :=
  toLex (id.name, toLex (id.canonicalName, id.kind.enc))

/-- Rendering of a sort key as a lexicographically ordered value (Rust Vec
and tuple orders are lexicographic). -/
def skLex (k : List (UName × ℚ)) : List (Lex (UName × ℚ)) := k.map toLex

/-- Merge-key order key of a unit factor: prefix, then identifier by sort key
(the Rust UnitIdentifier order), refined by the structural identifier key. -/
def UnitFactor.mkey (f : UnitFactor) :=
  toLex (f.pfx.key, toLex (skLex f.unit_id.sort_key, f.unit_id.structKey))

/-- Natural order key of a unit factor: identifier by sort key, then prefix,
then exponent (the derived Rust UnitFactor order), refined by the structural
identifier key. -/
def UnitFactor.nkey (f : UnitFactor) :=
  toLex (skLex f.unit_id.sort_key, toLex (f.pfx.key, toLex (f.exponent, f.unit_id.structKey)))

def fMergeLE (a b : UnitFactor) : Prop := a.mkey ≤ b.mkey

instance : DecidableRel fMergeLE := fun a b =>
  inferInstanceAs (Decidable (a.mkey ≤ b.mkey))

def fNatLE (a b : UnitFactor) : Prop := a.nkey ≤ b.nkey

instance : DecidableRel fNatLE := fun a b =>
  inferInstanceAs (Decidable (a.nkey ≤ b.nkey))

/-- Helper of mergeRuns carrying the factor currently being merged. -/
def mergeRunsGo (f : UnitFactor) : List UnitFactor → List UnitFactor
  | [] => [f]
  | g :: t =>
    if f.pfx = g.pfx ∧ f.unit_id = g.unit_id then
      mergeRunsGo { f with exponent := f.exponent + g.exponent } t
    else
      f :: mergeRunsGo g t

/-- Fold runs of structurally equal merge keys (prefix and identifier) by
merging: the merged factor keeps the first factor's prefix and identifier and
sums the exponents (the Canonicalize implementation for UnitFactor). -/
def mergeRuns : List UnitFactor → List UnitFactor
  | [] => []
  | f :: t => mergeRunsGo f t

/-- Modelled from the spec: canonicalize from the missing product.rs.  Stable
sort by merge key, fold runs of equal keys via merge, drop factors with zero
exponent, stable sort by the natural ordering. -/
def canonicalize (l : Unit) : Unit :=
  ((mergeRuns (l.insertionSort fMergeLE)).filter
    fun f => decide (f.exponent ≠ 0)).insertionSort fNatLE

/-! ### Unit operations (unit.rs, with the Product operations modelled from
the spec where product.rs is missing) -/

/-- Modelled from the spec: the empty product. -/
def Unit.unity : Unit := []

/-- Unit::scalar from unit.rs. -/
def Unit.scalar : Unit := Unit.unity

/-- Modelled from the spec: from_factor returns an uncanonicalized singleton. -/
def Unit.from_factor (f : UnitFactor) : Unit := [f]

/-- Modelled from the spec: from_factors constructs and canonicalizes. -/
def Unit.from_factors (l : List UnitFactor) : Unit := canonicalize l

/-- Modelled from the spec: multiplication concatenates and canonicalizes. -/
def Unit.mul (a b : Unit) : Unit := canonicalize (a ++ b)

/-- Power for units: scale every factor's exponent (unit.rs Power for
UnitFactor, lifted factor-wise; no canonicalization). -/
def Unit.power (u : Unit) (e : ℚ) : Unit :=
  u.map fun f => { f with exponent := f.exponent * e }

/-- Modelled from the spec: division negates the right-hand exponents and
multiplies. -/
def Unit.div (a b : Unit) : Unit :=
  Unit.mul a (b.map fun f => { f with exponent := -f.exponent })

/-- Unit::new_base from unit.rs. -/
def Unit.new_base (name canonicalName : UName) : Unit :=
  [⟨Pfx.noPfx, ⟨name, canonicalName, .base⟩, 1⟩]

/-- Conversion of a stored base expression into a unit whose factors carry
Base identifiers. -/
def liftBase (l : List BaseFactor) : Unit :=
  l.map fun f => ⟨f.pfx, ⟨f.unit_id.name, f.unit_id.canonicalName, .base⟩, f.exponent⟩

/-- Extraction of a stored base expression from a unit.  Unit::new_derived
asserts that every factor of its base-unit argument is a Base factor
(invariant 2 of the spec); on such units this is exact, and factors violating
the precondition (a programmer error per the spec) are recorded through their
name and canonical name. -/
def asBase (u : Unit) : List BaseFactor :=
  u.map fun f => ⟨f.pfx, ⟨f.unit_id.name, f.unit_id.canonicalName⟩, f.exponent⟩

/-- Unit::new_derived from unit.rs. -/
def Unit.new_derived (name canonicalName : UName) (factor : ℚ) (base_unit : Unit) : Unit :=
  [⟨Pfx.noPfx, ⟨name, canonicalName, .derived factor (asBase base_unit)⟩, 1⟩]

/-- Unit::with_prefix from unit.rs: attach a prefix to the first factor.  The
Rust code asserts the unit is non-empty and its first factor unprefixed
(invariant 3); on an empty unit, where the Rust release build would panic on
the vector index, the model returns the empty unit. -/
def Unit.with_pfx (u : Unit) (p : Pfx) : Unit :=
  match u with
  | [] => []
  | f :: t => { f with pfx := p } :: t

/-- UnitIdentifier::is_base from unit.rs. -/
def UnitIdentifier.is_base (id : UnitIdentifier) : Bool :=
  match id.kind with
  | .base => true
  | .derived _ _ => false

/-- UnitIdentifier::corresponding_base_unit from unit.rs. -/
def UnitIdentifier.corresponding_base_unit (id : UnitIdentifier) : Unit :=
  match id.kind with
  | .base => Unit.new_base id.name id.canonicalName
  | .derived _ b => liftBase b

/-- UnitIdentifier::conversion_factor from unit.rs. -/
def UnitIdentifier.conversion_factor (id : UnitIdentifier) : ℚ :=
  match id.kind with
  | .base => 1
  | .derived c _ => c

/-- Modelled from the spec: the missing numeric wrapper (number.rs) is a real
scalar under f64; finite values are embedded as rationals.  Number::pow with
an integral exponent is exact integer power; for a non-integral rational
exponent the double-precision power is generally irrational, hence not
representable here, and the model returns 0 (no claim constrains these
values). -/
def Number.pow (b e : ℚ) : ℚ :=
  if e.den = 1 then b ^ e.num else 0

/-- Product of a list of units using unit multiplication, as the Product
iterator product used in to_base_unit_representation. -/
def unitProd (l : List Unit) : Unit := l.foldl Unit.mul Unit.unity

/-- Unit::to_base_unit_representation from unit.rs: the canonicalized product
of each factor's corresponding base unit raised to the factor's exponent, and
the product of (prefix factor times conversion factor) raised to each
exponent. -/
def Unit.to_base_unit_representation (u : Unit) : Unit × ℚ :=
  (canonicalize (unitProd (u.map fun f => Unit.power f.unit_id.corresponding_base_unit f.exponent)),
   (u.map fun f => Number.pow (f.pfx.factor * f.unit_id.conversion_factor) f.exponent).prod)

/-- Canonical equality of units: the PartialEq implementation on Product
canonicalizes both sides (spec section 4.D). -/
def Unit.unitEq (a b : Unit) : Prop := canonicalize a = canonicalize b

instance : ∀ a b : Unit, Decidable (Unit.unitEq a b) := fun a b =>
  inferInstanceAs (Decidable (canonicalize a = canonicalize b))

/-- The merge key of a unit factor: its prefix and identifier (the
Canonicalize MergeKey of unit.rs). -/
def UnitFactor.mergeKey (f : UnitFactor) : Pfx × UnitIdentifier := (f.pfx, f.unit_id)

/-- Abelian-group content of a unit: the total exponent it assigns to each
merge key.  Two factor lists with the same content denote the same element of
the free abelian group of units. -/
def content (l : Unit) (k : Pfx × UnitIdentifier) : ℚ :=
  ((l.filter fun f => decide (f.mergeKey = k)).map fun f => f.exponent).sum

/-- Weighted base content of a unit: the total exponent its base-unit
representation assigns to each merge key, computed factor-wise (each factor
contributes its exponent times the content of its identifier's corresponding
base unit). -/
def WS (l : Unit) (k : Pfx × UnitIdentifier) : ℚ :=
  (l.map fun f => f.exponent * content f.unit_id.corresponding_base_unit k).sum

/-! ### Quantities (quantity.rs) -/

/-- QuantityError from quantity.rs. -/
inductive QuantityError where
  | IncompatibleUnits (actual target : Unit)
  | NonRationalExponent
deriving DecidableEq

/-- Result type of quantity.rs (std Result with QuantityError). -/
inductive Res (α : Type) where
  | ok (a : α)
  | err (e : QuantityError)
deriving DecidableEq

/-- Quantity from quantity.rs: a numeric value paired with a unit. -/
structure Quantity where
  value : ℚ
  unit : Unit
deriving DecidableEq

/-- Quantity::new. -/
def Quantity.new (value : ℚ) (unit : Unit) : Quantity := ⟨value, unit⟩

/-- Quantity::from_scalar. -/
def Quantity.from_scalar (value : ℚ) : Quantity := ⟨value, Unit.scalar⟩

/-- Quantity::from_unit: value one with the given unit. -/
def Quantity.from_unit (unit : Unit) : Quantity := ⟨1, unit⟩

/-- Quantity::is_zero: the value compares equal to zero. -/
def Quantity.is_zero (q : Quantity) : Prop := q.value = 0

instance : ∀ q : Quantity, Decidable q.is_zero := fun q =>
  inferInstanceAs (Decidable (q.value = 0))

/-- Quantity::to_base_unit_representation. -/
def Quantity.to_base (q : Quantity) : Quantity :=
  ⟨q.value * q.unit.to_base_unit_representation.2, q.unit.to_base_unit_representation.1⟩

/-- The common-factor computation inside Quantity::convert_to: fold over the
canonicalized source factors, look up a factor with the same prefix and
identifier in the canonicalized target, and when both exponents are strictly
positive (resp. strictly negative) multiply in that factor with the minimum
(resp. maximum) of the two exponents. -/
def commonUnitFactors (selfU target : Unit) : Unit :=
  (canonicalize selfU).foldl
    (fun (acc : Unit) factor =>
      match (canonicalize target).find?
          (fun f => decide (factor.pfx = f.pfx ∧ factor.unit_id = f.unit_id)) with
      | some other =>
        if (0 : ℚ) < factor.exponent ∧ (0 : ℚ) < other.exponent then
          Unit.mul acc (Unit.from_factor { factor with exponent := min factor.exponent other.exponent })
        else if factor.exponent < (0 : ℚ) ∧ other.exponent < (0 : ℚ) then
          Unit.mul acc (Unit.from_factor { factor with exponent := max factor.exponent other.exponent })
        else acc
      | none => acc)
    Unit.scalar

/-- Quantity::convert_to from quantity.rs.  The division of the source
quantity by the common-factor quantity is the infallible quantity division
(value divided by one, unit divided by the common factors), unwrapped. -/
def Quantity.convert_to (q : Quantity) (target : Unit) : Res Quantity :=
  if Unit.unitEq q.unit target ∨ q.is_zero then .ok ⟨q.value, target⟩
  else
    let common := commonUnitFactors q.unit target
    let target_reduced := canonicalize (Unit.div target common)
    let own_reduced := canonicalize (Unit.div q.unit common)
    let tb := target_reduced.to_base_unit_representation
    let qb := Quantity.to_base ⟨q.value / (Quantity.from_unit common).value,
                                Unit.div q.unit (Quantity.from_unit common).unit⟩
    let ob := own_reduced.to_base_unit_representation
    if Unit.unitEq ob.1 tb.1 then .ok ⟨qb.value / tb.2, target⟩
    else .err (.IncompatibleUnits q.unit target)

/-! ### full_simplify (quantity.rs) -/

/-- The removed_exponent helper of Quantity::full_simplify: the exponent of
the first factor of the identifier's corresponding base unit, or one when
that unit is empty. -/
def removed_exponent (u : UnitFactor) : ℚ :=
  match u.unit_id.corresponding_base_unit with
  | [] => 1
  | f :: _ => f.exponent

/-- The representative comparison of Quantity::full_simplify: compare
is_base (false before true), then the exponents. -/
def repCmp (f1 f2 : UnitFactor) : Ordering :=
  (compare f1.unit_id.is_base f2.unit_id.is_base).then (compare f1.exponent f2.exponent)

/-- Iterator::max_by semantics: the last maximal element, none on an empty
list. -/
def maxByLast (cmp : UnitFactor → UnitFactor → Ordering) : List UnitFactor → Option UnitFactor
  | [] => none
  | f :: t => some (t.foldl (fun acc x => if cmp acc x = .gt then acc else x) f)

/-- Grouping of consecutive factors with equal sort keys, as the itertools
group_by call in Quantity::full_simplify. -/
def chunkByKey : List UnitFactor → List (List UnitFactor)
  | [] => []
  | f :: t =>
    match chunkByKey t with
    | [] => [[f]]
    | [] :: rest => [f] :: rest
    | (g :: gs) :: rest =>
      if f.unit_id.sort_key = g.unit_id.sort_key then (f :: g :: gs) :: rest
      else [f] :: (g :: gs) :: rest

/-- The target factor a group of Quantity::full_simplify is converted to:
the representative with the combined exponent of the group. -/
def pgTarget (rep : UnitFactor) (group_as_unit : Unit) : UnitFactor :=
  { rep with exponent :=
      (group_as_unit.map fun f => f.exponent * removed_exponent f / removed_exponent rep).sum }

/-- The body of the group loop of Quantity::full_simplify for one sort-key
group: canonicalize the group into a unit, choose the representative (the
last maximum under repCmp; none models the expect on an empty group), build
the target factor from the representative and the combined exponent, and
convert the group to the target (none models the unwrap of a failed
conversion); on success, the conversion value and the target factor. -/
def processGroup (group : List UnitFactor) : Option (ℚ × UnitFactor) :=
  match maxByLast repCmp (Unit.from_factors group) with
  | none => none
  | some rep =>
    match Quantity.convert_to (Quantity.from_unit (Unit.from_factors group))
        (Unit.from_factor (pgTarget rep (Unit.from_factors group))) with
    | .err _ => none
    | .ok conv => some (conv.value, pgTarget rep (Unit.from_factors group))

/-- The loop of Quantity::full_simplify over the sort-key groups,
accumulating the numeric factor and the simplified unit.  The two panic
sources of the Rust code are modelled by the none result of processGroup. -/
def simplifyGroups : List (List UnitFactor) → ℚ → Unit → Option (ℚ × Unit)
  | [], factor, simplified => some (factor, simplified)
  | group :: rest, factor, simplified =>
    match processGroup group with
    | none => none
    | some (v, t) =>
      simplifyGroups rest (factor * v) (Unit.mul simplified (Unit.from_factor t))

/-- Quantity::full_simplify from quantity.rs, with the panic sources of the
Rust code modelled by the none result (compare simplifyGroups). -/
def Quantity.full_simplify_opt (q : Quantity) : Option Quantity :=
  match q.convert_to Unit.scalar with
  | .ok scalar_result => some scalar_result
  | .err _ =>
    (simplifyGroups (chunkByKey (canonicalize q.unit)) 1 Unit.scalar).map
      fun p => ⟨q.value * p.1, canonicalize p.2⟩

/-! ### Arithmetic and powers (quantity.rs) -/

/-- Quantity multiplication: infallible despite the Result type. -/
def Quantity.qmul (a b : Quantity) : Res Quantity :=
  .ok ⟨a.value * b.value, Unit.mul a.unit b.unit⟩

/-- Quantity division: infallible despite the Result type. -/
def Quantity.qdiv (a b : Quantity) : Res Quantity :=
  .ok ⟨a.value / b.value, Unit.div a.unit b.unit⟩

/-- Quantity::as_scalar: the value after conversion to the scalar unit. -/
def Quantity.as_scalar (q : Quantity) : Res ℚ :=
  match q.convert_to Unit.scalar with
  | .ok r => .ok r.value
  | .err e => .err e

/-- Modelled from the spec: Rational::from_f64 on the 128-bit machine
rationals of the missing arithmetic.rs.  Every finite double is an exact
dyadic rational, so the conversion fails exactly when the value is not
representable with 128-bit numerator and denominator (or is not finite,
which the rational model cannot produce). -/
def ratFromFloat (x : ℚ) : Option ℚ :=
  if -(2 ^ 127) ≤ x.num ∧ x.num < 2 ^ 127 ∧ (x.den : ℤ) < 2 ^ 127 then some x else none

/-- Quantity::power from quantity.rs: the exponent quantity must reduce to a
dimensionless scalar, and the unit exponent must convert to an exact
rational. -/
def Quantity.power (q exp : Quantity) : Res Quantity :=
  match exp.as_scalar with
  | .err e => .err e
  | .ok s =>
    match ratFromFloat s with
    | none => .err .NonRationalExponent
    | some r => .ok ⟨Number.pow q.value s, Unit.power q.unit r⟩

/-! ### Decorators (decorator.rs) -/

/-- Modelled from the spec: AcceptsPrefix of the missing prefix-parser
module, a pair of flags for accepting short and long prefixes.  Spelled
AcceptsPfx here. -/
structure AcceptsPfx where
  short : Bool
  long : Bool
deriving DecidableEq

/-- Modelled from the spec: AcceptsPrefix::only_long accepts long prefixes
only. -/
def AcceptsPfx.only_long : AcceptsPfx := ⟨false, true⟩

/-- Decorator from decorator.rs. -/
inductive Decorator where
  | metricPfxs
  | binaryPfxs
  | aliases (l : List (UName × Option AcceptsPfx))
deriving DecidableEq

/-- name_and_aliases from decorator.rs: the alias vector is rebuilt from each
Aliases decorator in turn (so the last one wins), defaulting unspecified
policies to long-only; the name itself is prepended with long-only acceptance
unless it already occurs verbatim among the aliases. -/
def name_and_aliases (name : UName) (decorators : List Decorator) :
    List (UName × AcceptsPfx) :=
  let aliasesV := decorators.foldl
    (fun (acc : List (UName × AcceptsPfx)) d =>
      match d with
      | .aliases l => l.map fun p => (p.1, p.2.getD AcceptsPfx.only_long)
      | _ => acc)
    []
  if aliasesV.any (fun p => decide (p.1 = name)) then aliasesV
  else (name, AcceptsPfx.only_long) :: aliasesV

/-- get_canonical_unit_name from decorator.rs: the first alias whose stated
policy accepts short prefixes, else the given name. -/
def get_canonical_unit_name (unit_name : UName) (decorators : List Decorator) : UName :=
  match decorators.findSome?
      (fun d =>
        match d with
        | .aliases l => l.findSome? fun p =>
            if (p.2.map (fun ap => ap.short)).getD false then some p.1 else none
        | _ => none) with
  | some alias0 => alias0
  | none => unit_name

/-! ### Concrete units (the test constructors of unit.rs, with prefix values
modelled from the spec) -/

/-- Modelled from the spec: the metric prefixes used by the tests. -/
def Pfx.centi : Pfx := .metric (-2)

def Pfx.milli : Pfx := .metric (-3)

def Pfx.kilo : Pfx := .metric 3

def Pfx.mega : Pfx := .metric 6

def Unit.meter : Unit := Unit.new_base "meter".toList "m".toList

def Unit.second : Unit := Unit.new_base "second".toList "s".toList

def Unit.gram : Unit := Unit.new_base "gram".toList "g".toList

def Unit.centimeter : Unit := Unit.with_pfx Unit.meter Pfx.centi

def Unit.millimeter : Unit := Unit.with_pfx Unit.meter Pfx.milli

def Unit.kilometer : Unit := Unit.with_pfx Unit.meter Pfx.kilo

def Unit.hertz : Unit :=
  Unit.new_derived "hertz".toList "Hz".toList 1 (Unit.power Unit.second (-1))

def Unit.hour : Unit := Unit.new_derived "hour".toList "h".toList 3600 Unit.second

def Unit.kph : Unit :=
  Unit.new_derived "kilometer_per_hour".toList "kph".toList (5 / 18)
    (Unit.div (Unit.new_base "meter".toList "m".toList) Unit.second)

def Unit.mile : Unit :=
  Unit.new_derived "mile".toList "mi".toList (201168 / 125) Unit.meter

def Unit.bit : Unit := Unit.new_base "bit".toList "B".toList

def Unit.byte : Unit := Unit.new_derived "byte".toList "B".toList 8 Unit.bit

def Unit.foot : Unit :=
  Unit.new_derived "foot".toList "ft".toList (381 / 1250) Unit.meter

/-- Canonical form of a unit: sorted by the natural order, pairwise distinct
merge keys, no zero exponents (the canonical-form invariant of the spec). -/
def IsCanon (l : Unit) : Prop :=
  List.Sorted fNatLE l ∧ l.Pairwise (fun a b => a.mergeKey ≠ b.mergeKey) ∧
    ∀ f ∈ l, f.exponent ≠ 0

/-- Sort key as claim C5 describes it: identical to sort_key except that the
exponents are scaled by the product of their denominators. -/
def sort_key_spec (id : UnitIdentifier) : List (UName × ℚ) :=
  match id.kind with
  | .base => [(id.name, (1 : ℚ))]
  | .derived _ baseUnit =>
    let key0 : List (UName × ℚ) :=
      (canonBase baseUnit).map fun f => (f.unit_id.name, f.exponent)
    match key0 with
    | [] => []
    | p0 :: rest0 =>
      let key1 :=
        if p0.2 < 0 then (p0 :: rest0).map (fun q => (q.1, -q.2)) else p0 :: rest0
      let factor : ℤ := (key1.map fun q => (q.2.den : ℤ)).prod
      let key2 := key1.map fun q => (q.1, q.2 * (factor : ℚ))
      let cd : ℤ :=
        match key2 with
        | [] => 1
        | q0 :: qrest => qrest.foldl (fun c q => (Int.gcd c (ratTrunc q.2) : ℤ)) (ratTrunc q0.2)
      key2.map fun q => (q.1, q.2 / (cd : ℚ))

/-- A derived unit identifier whose base expression is meter to the one-half. -/
def sqrtMeterId : UnitIdentifier :=
  ⟨"sqm".toList, "sqm".toList, .derived 1 [⟨Pfx.noPfx, ⟨"meter".toList, "m".toList⟩, 1 / 2⟩]⟩

/-- A unit made of two distinct base identifiers sharing one name. -/
def twoBaseUnit : Unit :=
  Unit.mul (Unit.new_base "x".toList "a".toList) (Unit.new_base "x".toList "b".toList)

/-- The alias list visible to name_and_aliases: the list of the last Aliases
decorator (the Rust loop overwrites the vector on each one), with
unspecified prefix policies defaulting to long-only. -/
def aliasView (decorators : List Decorator) : List (UName × AcceptsPfx) :=
  ((decorators.reverse.findSome? fun d =>
      match d with
      | .aliases l => some l
      | _ => none).getD []).map fun p => (p.1, p.2.getD AcceptsPfx.only_long)

/-- The set of common factors as claim C3 describes it: for each factor of
the canonical form of the source whose (prefix, identifier) pair also occurs
in the canonical form of the target with an exponent of the same sign, one
factor with that prefix and identifier and the minimum exponent (for
positive signs) or maximum exponent (for negative signs); factors with
opposite signs or occurring on one side only contribute nothing. -/
def commonUnitFactorsSpec (selfU target : Unit) : Unit :=
  canonicalize ((canonicalize selfU).filterMap fun factor =>
    match (canonicalize target).find?
        (fun f => decide (factor.pfx = f.pfx ∧ factor.unit_id = f.unit_id)) with
    | some other =>
      if (0 : ℚ) < factor.exponent ∧ (0 : ℚ) < other.exponent then
        some { factor with exponent := min factor.exponent other.exponent }
      else if factor.exponent < (0 : ℚ) ∧ other.exponent < (0 : ℚ) then
        some { factor with exponent := max factor.exponent other.exponent }
      else none
    | none => none)

/-- A derived unit with conversion factor zero over the meter. -/
def zeroFactorUnit : Unit := Unit.new_derived "w".toList "w".toList 0 Unit.meter

/-! Sanity checks mirroring the unit tests of quantity.rs and unit.rs. -/

example : Quantity.convert_to ⟨2, Unit.meter⟩ Unit.meter = .ok ⟨2, Unit.meter⟩ := by decide

example : Quantity.convert_to ⟨2, Unit.meter⟩ Unit.second =
    .err (.IncompatibleUnits Unit.meter Unit.second) := by decide

example : Quantity.convert_to ⟨2, Unit.meter⟩ Unit.scalar =
    .err (.IncompatibleUnits Unit.meter Unit.scalar) := by decide

example : Quantity.convert_to ⟨2, Unit.meter⟩ Unit.foot = .ok ⟨2500 / 381, Unit.foot⟩ := by decide

example : Quantity.convert_to ⟨5 / 2, Unit.meter⟩ Unit.centimeter =
    .ok ⟨250, Unit.centimeter⟩ := by decide

example : Quantity.power ⟨5 / 2, Unit.meter⟩ (Quantity.from_scalar 3) =
    .ok ⟨125 / 8, Unit.power Unit.meter 3⟩ := by decide

example : Quantity.convert_to ⟨125 / 8, Unit.power Unit.meter 3⟩
      (Unit.power Unit.centimeter 3) =
    .ok ⟨15625000, Unit.power Unit.centimeter 3⟩ := by decide

example : Quantity.full_simplify_opt ⟨2, Unit.div Unit.meter Unit.second⟩ =
    some ⟨2, canonicalize (Unit.div Unit.meter Unit.second)⟩ := by decide

example : Quantity.full_simplify_opt ⟨2, Unit.div Unit.meter Unit.millimeter⟩ =
    some ⟨2000, Unit.scalar⟩ := by decide

example : Quantity.full_simplify_opt ⟨2, Unit.div Unit.kilometer Unit.millimeter⟩ =
    some ⟨2000000, Unit.scalar⟩ := by decide

example : Quantity.full_simplify_opt ⟨2, Unit.mul (Unit.div Unit.meter Unit.centimeter) Unit.second⟩ =
    some ⟨200, Unit.second⟩ := by decide

example : Quantity.full_simplify_opt ⟨1, Unit.div Unit.kph (Unit.div Unit.kilometer Unit.hour)⟩ =
    some ⟨1, Unit.scalar⟩ := by decide

example : Quantity.full_simplify_opt ⟨2, Unit.mul (Unit.mul Unit.meter Unit.second) Unit.meter⟩ =
    some ⟨2, canonicalize (Unit.mul (Unit.power Unit.meter 2) Unit.second)⟩ := by decide

example : Quantity.full_simplify_opt ⟨1, Unit.div (Unit.mul Unit.meter Unit.gram) Unit.centimeter⟩ =
    some ⟨100, Unit.gram⟩ := by decide

example : Quantity.full_simplify_opt ⟨5, Unit.div (Unit.mul Unit.second Unit.millimeter) Unit.meter⟩ =
    some ⟨1 / 200, Unit.second⟩ := by decide

example : Quantity.full_simplify_opt
      ⟨5, Unit.mul (Unit.div (Unit.with_pfx Unit.bit Pfx.mega) Unit.second) Unit.hour⟩ =
    some ⟨18000, Unit.with_pfx Unit.bit Pfx.mega⟩ := by decide

example : Quantity.full_simplify_opt ⟨5, Unit.mul Unit.centimeter Unit.meter⟩ =
    some ⟨1 / 20, canonicalize (Unit.power Unit.meter 2)⟩ := by decide

example : Quantity.full_simplify_opt ⟨1, Unit.div Unit.hertz Unit.second⟩ =
    some ⟨1, Unit.power Unit.second (-2)⟩ := by decide

example : Unit.to_base_unit_representation (Unit.div Unit.mile Unit.hour) =
    (canonicalize (Unit.div Unit.meter Unit.second), 1397 / 3125) := by decide

/-! ### Equational description of convert_to -/

/-- Equation lemma for convert_to with the let bindings expanded. -/
theorem Quantity.convert_to_eq (q : Quantity) (target : Unit) :
    q.convert_to target =
      if Unit.unitEq q.unit target ∨ q.is_zero then .ok ⟨q.value, target⟩
      else if Unit.unitEq
          (canonicalize (Unit.div q.unit (commonUnitFactors q.unit target))).to_base_unit_representation.1
          (canonicalize (Unit.div target (commonUnitFactors q.unit target))).to_base_unit_representation.1
        then .ok ⟨(Quantity.to_base ⟨q.value / (Quantity.from_unit (commonUnitFactors q.unit target)).value,
                    Unit.div q.unit (Quantity.from_unit (commonUnitFactors q.unit target)).unit⟩).value /
                  (canonicalize (Unit.div target (commonUnitFactors q.unit target))).to_base_unit_representation.2,
                  target⟩
        else .err (.IncompatibleUnits q.unit target) := rfl

/-- Every error of convert_to is the IncompatibleUnits error carrying the
source unit and the target unit. -/
theorem Quantity.convert_to_err (q : Quantity) (target : Unit) :
    ∀ e, q.convert_to target = .err e → e = .IncompatibleUnits q.unit target := by
  intro e h
  rw [Quantity.convert_to_eq] at h
  by_cases h1 : Unit.unitEq q.unit target ∨ q.is_zero
  · rw [if_pos h1] at h
    exact absurd h (by simp)
  · rw [if_neg h1] at h
    by_cases h2 : Unit.unitEq
        (canonicalize (Unit.div q.unit (commonUnitFactors q.unit target))).to_base_unit_representation.1
        (canonicalize (Unit.div target (commonUnitFactors q.unit target))).to_base_unit_representation.1
    · rw [if_pos h2] at h
      exact absurd h (by simp)
    · rw [if_neg h2] at h
      cases h
      rfl

/-! ### Canonicalization infrastructure: order keys are injective -/

theorem Pfx.key_inj {a b : Pfx} (h : a.key = b.key) : a = b := by
  cases a <;> cases b <;> simp_all [Pfx.key]

theorem baseFactor_enc_inj : Function.Injective BaseFactor.enc := by
  rintro ⟨p1, ⟨n1, c1⟩, e1⟩ ⟨p2, ⟨n2, c2⟩, e2⟩ h
  simp only [BaseFactor.enc, toLex_inj, Prod.mk.injEq] at h
  obtain ⟨hp, hn, hc, he⟩ := h
  subst hn; subst hc; subst he
  rw [Pfx.key_inj hp]

theorem unitKind_enc_inj : Function.Injective UnitKind.enc := by
  intro a b h
  cases a <;> cases b <;>
    simp only [UnitKind.enc, toLex_inj, Prod.mk.injEq] at h
  · rfl
  · exact absurd h.1 (by simp)
  · exact absurd h.1 (by simp)
  · obtain ⟨-, hc, hl⟩ := h
    subst hc
    rw [List.map_injective_iff.mpr baseFactor_enc_inj hl]

theorem UnitIdentifier.structKey_inj : Function.Injective UnitIdentifier.structKey := by
  rintro ⟨n1, c1, k1⟩ ⟨n2, c2, k2⟩ h
  simp only [UnitIdentifier.structKey, toLex_inj, Prod.mk.injEq] at h
  obtain ⟨hn, hc, hk⟩ := h
  subst hn; subst hc
  rw [unitKind_enc_inj hk]

theorem UnitFactor.nkey_inj : Function.Injective UnitFactor.nkey := by
  rintro ⟨p1, i1, e1⟩ ⟨p2, i2, e2⟩ h
  simp only [UnitFactor.nkey, toLex_inj, Prod.mk.injEq] at h
  obtain ⟨-, hp, he, hi⟩ := h
  subst he
  rw [Pfx.key_inj hp, UnitIdentifier.structKey_inj hi]

theorem UnitFactor.mkey_eq_iff {a b : UnitFactor} :
    a.mkey = b.mkey ↔ a.mergeKey = b.mergeKey := by
  simp only [UnitFactor.mkey, UnitFactor.mergeKey, toLex_inj, Prod.mk.injEq]
  constructor
  · rintro ⟨hp, -, hi⟩
    exact ⟨Pfx.key_inj hp, UnitIdentifier.structKey_inj hi⟩
  · rintro ⟨hp, hi⟩
    rw [hp, hi]
    exact ⟨rfl, rfl, rfl⟩

/-- Two unit factors with the same merge key and the same exponent are equal. -/
theorem UnitFactor.ext_key {a b : UnitFactor} (hk : a.mergeKey = b.mergeKey)
    (he : a.exponent = b.exponent) : a = b := by
  cases a; cases b
  simp only [UnitFactor.mergeKey, Prod.mk.injEq] at hk
  simp_all

instance : IsTotal UnitFactor fNatLE := ⟨fun a b => le_total a.nkey b.nkey⟩

instance : IsTrans UnitFactor fNatLE := ⟨fun _ _ _ => le_trans⟩

instance : IsAntisymm UnitFactor fNatLE :=
  ⟨fun _ _ h1 h2 => UnitFactor.nkey_inj (le_antisymm h1 h2)⟩

instance : IsTotal UnitFactor fMergeLE := ⟨fun a b => le_total a.mkey b.mkey⟩

instance : IsTrans UnitFactor fMergeLE := ⟨fun _ _ _ => le_trans⟩

/-! ### Content lemmas -/

theorem content_nil (k : Pfx × UnitIdentifier) : content [] k = 0 := rfl

theorem content_cons (f : UnitFactor) (t : Unit) (k : Pfx × UnitIdentifier) :
    content (f :: t) k = (if f.mergeKey = k then f.exponent else 0) + content t k := by
  by_cases h : f.mergeKey = k <;>
    simp [content, List.filter_cons, h]

theorem content_append (a b : Unit) (k : Pfx × UnitIdentifier) :
    content (a ++ b) k = content a k + content b k := by
  simp [content, List.filter_append]

theorem content_perm {a b : Unit} (h : List.Perm a b) : content a = content b := by
  funext k
  exact ((h.filter _).map _).sum_eq

theorem content_negmap (l : Unit) (k : Pfx × UnitIdentifier) :
    content (l.map fun f => { f with exponent := -f.exponent }) k = -content l k := by
  induction l with
  | nil => simp [content_nil]
  | cons f t ih =>
    have hk : ({ f with exponent := -f.exponent } : UnitFactor).mergeKey = f.mergeKey := rfl
    rw [List.map_cons, content_cons, content_cons, hk, ih]
    by_cases h : f.mergeKey = k <;> simp [h] <;> ring

theorem content_power (u : Unit) (e : ℚ) (k : Pfx × UnitIdentifier) :
    content (Unit.power u e) k = content u k * e := by
  induction u with
  | nil => simp [Unit.power, content_nil]
  | cons f t ih =>
    have hk : ({ f with exponent := f.exponent * e } : UnitFactor).mergeKey = f.mergeKey := rfl
    rw [Unit.power, List.map_cons]
    rw [content_cons, hk, content_cons]
    rw [show (t.map fun f => { f with exponent := f.exponent * e }) = Unit.power t e from rfl, ih]
    by_cases h : f.mergeKey = k <;> simp [h] <;> ring

theorem content_filter_nonzero (l : Unit) (k : Pfx × UnitIdentifier) :
    content (l.filter fun f => decide (f.exponent ≠ 0)) k = content l k := by
  induction l with
  | nil => rfl
  | cons f t ih =>
    by_cases h : f.exponent = 0
    · rw [List.filter_cons, if_neg (by simp [h]), ih, content_cons]
      simp [h]
    · rw [List.filter_cons, if_pos (by simp [h]), content_cons, content_cons, ih]

theorem content_mergeRunsGo (f : UnitFactor) (t : List UnitFactor) (k : Pfx × UnitIdentifier) :
    content (mergeRunsGo f t) k = content (f :: t) k := by
  induction t generalizing f with
  | nil => rfl
  | cons g t ih =>
    rw [mergeRunsGo]
    by_cases h : f.pfx = g.pfx ∧ f.unit_id = g.unit_id
    · rw [if_pos h, ih]
      have hk : ({ f with exponent := f.exponent + g.exponent } : UnitFactor).mergeKey
          = f.mergeKey := rfl
      have hgk : g.mergeKey = f.mergeKey := by
        simp [UnitFactor.mergeKey, h.1, h.2]
      rw [content_cons, content_cons, content_cons, hk, hgk]
      by_cases hm : f.mergeKey = k <;> simp [hm] <;> ring
    · rw [if_neg h, content_cons, content_cons, ih, content_cons]

theorem content_mergeRuns (l : List UnitFactor) (k : Pfx × UnitIdentifier) :
    content (mergeRuns l) k = content l k := by
  cases l with
  | nil => rfl
  | cons f t => exact content_mergeRunsGo f t k

theorem content_insertionSort (r : UnitFactor → UnitFactor → Prop) [DecidableRel r]
    (l : Unit) : content (l.insertionSort r) = content l :=
  content_perm (l.perm_insertionSort r)

theorem content_canonicalize (l : Unit) : content (canonicalize l) = content l := by
  funext k
  rw [canonicalize, content_insertionSort, content_filter_nonzero, content_mergeRuns,
    content_insertionSort]

/-! ### Canonical forms are unique representatives of their content -/

theorem mergeRunsGo_keys (f : UnitFactor) (t : List UnitFactor) :
    ∀ g ∈ mergeRunsGo f t, ∃ g₀ ∈ f :: t, g.mergeKey = g₀.mergeKey := by
  induction t generalizing f with
  | nil =>
    intro g hg
    rw [mergeRunsGo] at hg
    simp only [List.mem_singleton] at hg
    exact ⟨f, by simp, by rw [hg]⟩
  | cons g' t ih =>
    intro g hg
    rw [mergeRunsGo] at hg
    by_cases h : f.pfx = g'.pfx ∧ f.unit_id = g'.unit_id
    · rw [if_pos h] at hg
      obtain ⟨g₀, hg₀, hk⟩ := ih _ g hg
      rcases List.mem_cons.mp hg₀ with h0 | h0
      · exact ⟨f, by simp, by rw [hk, h0]; rfl⟩
      · exact ⟨g₀, by simp [h0], hk⟩
    · rw [if_neg h] at hg
      rcases List.mem_cons.mp hg with h0 | h0
      · exact ⟨f, by simp, by rw [h0]⟩
      · obtain ⟨g₀, hg₀, hk⟩ := ih _ g h0
        rcases List.mem_cons.mp hg₀ with h1 | h1
        · exact ⟨g', by simp, by rw [hk, h1]⟩
        · exact ⟨g₀, by simp [h1], hk⟩

theorem mergeRunsGo_pairwise (f : UnitFactor) (t : List UnitFactor)
    (hs : List.Sorted fMergeLE (f :: t)) :
    (mergeRunsGo f t).Pairwise fun a b => a.mergeKey ≠ b.mergeKey := by
  induction t generalizing f with
  | nil => simp [mergeRunsGo]
  | cons g t ih =>
    rw [List.sorted_cons] at hs
    obtain ⟨hf, hs'⟩ := hs
    rw [mergeRunsGo]
    by_cases h : f.pfx = g.pfx ∧ f.unit_id = g.unit_id
    · rw [if_pos h]
      apply ih
      rw [List.sorted_cons]
      rw [List.sorted_cons] at hs'
      exact ⟨fun b hb => hf b (List.mem_cons_of_mem _ hb), hs'.2⟩
    · rw [if_neg h]
      rw [List.pairwise_cons]
      refine ⟨?_, ih g hs'⟩
      intro a ha hcontra
      obtain ⟨g₀, hg₀, hk⟩ := mergeRunsGo_keys g t a ha
      have hfg : f.mkey ≤ g.mkey := hf g (by simp)
      rcases List.mem_cons.mp hg₀ with h1 | h1
      · apply h
        have : f.mergeKey = g.mergeKey := by rw [hcontra, hk, h1]
        simpa [UnitFactor.mergeKey, Prod.mk.injEq] using this
      · have hgg : g.mkey ≤ g₀.mkey := (List.sorted_cons.mp hs').1 g₀ h1
        have hkey : g₀.mkey = f.mkey := by
          rw [UnitFactor.mkey_eq_iff, ← hk, ← hcontra]
        have hfgk : f.mkey = g.mkey :=
          le_antisymm hfg (le_trans hgg (le_of_eq hkey))
        apply h
        simpa [UnitFactor.mergeKey, Prod.mk.injEq] using UnitFactor.mkey_eq_iff.mp hfgk

theorem canonicalize_isCanon (l : Unit) : IsCanon (canonicalize l) := by
  refine ⟨List.sorted_insertionSort _ _, ?_, ?_⟩
  · have hperm := List.perm_insertionSort fNatLE
      ((mergeRuns (l.insertionSort fMergeLE)).filter fun f => decide (f.exponent ≠ 0))
    have hsymm : Symmetric fun a b : UnitFactor => a.mergeKey ≠ b.mergeKey := by
      intro x y hxy e
      exact hxy e.symm
    refine (List.Perm.pairwise_iff @hsymm hperm).mpr ?_
    refine List.Pairwise.sublist (List.filter_sublist _) ?_
    cases hs : l.insertionSort fMergeLE with
    | nil => simp [mergeRuns]
    | cons f t =>
      have hsorted : List.Sorted fMergeLE (f :: t) := by
        rw [← hs]; exact List.sorted_insertionSort _ _
      exact mergeRunsGo_pairwise f t hsorted
  · intro f hf
    rw [canonicalize, List.mem_insertionSort, List.mem_filter] at hf
    exact of_decide_eq_true hf.2

theorem content_eq_zero_of_keys (l : Unit) (k : Pfx × UnitIdentifier)
    (h : ∀ f ∈ l, f.mergeKey ≠ k) : content l k = 0 := by
  induction l with
  | nil => rfl
  | cons f t ih =>
    rw [content_cons, if_neg (h f (by simp)), ih (fun g hg => h g (by simp [hg])), zero_add]

theorem content_mem_unique {l : Unit} (hp : l.Pairwise fun a b => a.mergeKey ≠ b.mergeKey)
    {g : UnitFactor} (hg : g ∈ l) : content l g.mergeKey = g.exponent := by
  induction l with
  | nil => cases hg
  | cons f t ih =>
    rw [List.pairwise_cons] at hp
    rcases List.mem_cons.mp hg with h | h
    · subst h
      rw [content_cons, if_pos rfl,
        content_eq_zero_of_keys t _ (fun x hx e => hp.1 x hx e.symm), add_zero]
    · rw [content_cons, if_neg (hp.1 g h), ih hp.2 h, zero_add]

theorem content_eq_perm : ∀ l : Unit, l.Pairwise (fun a b => a.mergeKey ≠ b.mergeKey) →
    (∀ f ∈ l, f.exponent ≠ 0) →
    ∀ l' : Unit, l'.Pairwise (fun a b => a.mergeKey ≠ b.mergeKey) →
    (∀ f ∈ l', f.exponent ≠ 0) →
    content l = content l' → List.Perm l l' := by
  intro l
  induction l with
  | nil =>
    intro _ _ l' hp' h0' hc
    cases l' with
    | nil => exact List.Perm.refl _
    | cons g t' =>
      exfalso
      have hu := content_mem_unique hp' (List.mem_cons_self g t')
      rw [← hc] at hu
      exact h0' g (by simp) (by rw [← hu]; rfl)
  | cons f t ih =>
    intro hp h0 l' hp' h0' hc
    have hf' : content l' f.mergeKey = f.exponent := by
      rw [← hc]
      exact content_mem_unique hp (by simp)
    have hex : ∃ g ∈ l', g.mergeKey = f.mergeKey := by
      by_contra hno
      push_neg at hno
      have hz := content_eq_zero_of_keys l' f.mergeKey hno
      rw [hf'] at hz
      exact h0 f (by simp) hz
    obtain ⟨g, hgmem, hgk⟩ := hex
    have hge : g.exponent = f.exponent := by
      have hu := content_mem_unique hp' hgmem
      rw [hgk, hf'] at hu
      exact hu.symm
    have hfmem : f ∈ l' := (UnitFactor.ext_key hgk hge) ▸ hgmem
    have hpe := List.perm_cons_erase hfmem
    have hct : content t = content (l'.erase f) := by
      funext k
      have h1 : content (f :: t) k = content (f :: l'.erase f) k := by
        rw [hc, content_perm hpe]
      rw [content_cons, content_cons] at h1
      exact add_left_cancel h1
    have hperase : List.Perm t (l'.erase f) :=
      ih (List.pairwise_cons.mp hp).2 (fun x hx => h0 x (List.mem_cons_of_mem _ hx))
        (l'.erase f) (List.Pairwise.sublist (List.erase_sublist f l') hp')
        (fun x hx => h0' x (List.erase_subset f l' hx)) hct
    exact (hperase.cons f).trans hpe.symm

theorem canon_unique {l l' : Unit} (h : IsCanon l) (h' : IsCanon l')
    (hc : content l = content l') : l = l' :=
  List.eq_of_perm_of_sorted (content_eq_perm l h.2.1 h.2.2 l' h'.2.1 h'.2.2 hc) h.1 h'.1

theorem canonicalize_eq_of_content {l l' : Unit} (hc : content l = content l') :
    canonicalize l = canonicalize l' :=
  canon_unique (canonicalize_isCanon l) (canonicalize_isCanon l')
    (by rw [content_canonicalize, content_canonicalize]; exact hc)

theorem canon_fix {l : Unit} (h : IsCanon l) : canonicalize l = l :=
  canon_unique (canonicalize_isCanon l) h (content_canonicalize l)

theorem canonicalize_idem (l : Unit) : canonicalize (canonicalize l) = canonicalize l :=
  canon_fix (canonicalize_isCanon l)

/-! ### Content of the unit operations -/

theorem content_mul (a b : Unit) (k : Pfx × UnitIdentifier) :
    content (Unit.mul a b) k = content a k + content b k := by
  rw [Unit.mul, content_canonicalize, content_append]

theorem content_div (a b : Unit) (k : Pfx × UnitIdentifier) :
    content (Unit.div a b) k = content a k - content b k := by
  rw [Unit.div, content_mul, content_negmap]
  ring

theorem content_foldl_mul (l : List Unit) (s : Unit) (k : Pfx × UnitIdentifier) :
    content (l.foldl Unit.mul s) k = content s k + (l.map fun u => content u k).sum := by
  induction l generalizing s with
  | nil => simp [content_nil]
  | cons u t ih =>
    rw [List.foldl_cons, ih, content_mul, List.map_cons, List.sum_cons]
    ring

/-! ### Weighted base content -/

theorem WS_cons (f : UnitFactor) (t : Unit) (k : Pfx × UnitIdentifier) :
    WS (f :: t) k = f.exponent * content f.unit_id.corresponding_base_unit k + WS t k := by
  simp [WS]

theorem WS_append (a b : Unit) (k : Pfx × UnitIdentifier) :
    WS (a ++ b) k = WS a k + WS b k := by
  simp [WS]

theorem WS_perm {a b : Unit} (h : List.Perm a b) : WS a = WS b := by
  funext k
  exact (h.map _).sum_eq

theorem WS_negmap (l : Unit) (k : Pfx × UnitIdentifier) :
    WS (l.map fun f => { f with exponent := -f.exponent }) k = -WS l k := by
  induction l with
  | nil => simp [WS]
  | cons f t ih =>
    rw [List.map_cons, WS_cons, WS_cons, ih]
    ring

theorem WS_mergeRunsGo (f : UnitFactor) (t : List UnitFactor) (k : Pfx × UnitIdentifier) :
    WS (mergeRunsGo f t) k = WS (f :: t) k := by
  induction t generalizing f with
  | nil => rfl
  | cons g t ih =>
    rw [mergeRunsGo]
    by_cases h : f.pfx = g.pfx ∧ f.unit_id = g.unit_id
    · rw [if_pos h, ih, WS_cons, WS_cons, WS_cons]
      have hid : g.unit_id = f.unit_id := h.2.symm
      rw [hid]
      ring
    · rw [if_neg h, WS_cons, WS_cons, ih, WS_cons]

theorem WS_mergeRuns (l : List UnitFactor) (k : Pfx × UnitIdentifier) :
    WS (mergeRuns l) k = WS l k := by
  cases l with
  | nil => rfl
  | cons f t => exact WS_mergeRunsGo f t k

theorem WS_filter_nonzero (l : Unit) (k : Pfx × UnitIdentifier) :
    WS (l.filter fun f => decide (f.exponent ≠ 0)) k = WS l k := by
  induction l with
  | nil => rfl
  | cons f t ih =>
    by_cases h : f.exponent = 0
    · rw [List.filter_cons, if_neg (by simp [h]), ih, WS_cons, h]
      ring
    · rw [List.filter_cons, if_pos (by simp [h]), WS_cons, WS_cons, ih]

theorem WS_canonicalize (l : Unit) : WS (canonicalize l) = WS l := by
  funext k
  rw [canonicalize]
  rw [show WS (((mergeRuns (l.insertionSort fMergeLE)).filter fun f =>
      decide (f.exponent ≠ 0)).insertionSort fNatLE) k =
    WS ((mergeRuns (l.insertionSort fMergeLE)).filter fun f => decide (f.exponent ≠ 0)) k from
    congrFun (WS_perm (List.perm_insertionSort _ _)) k]
  rw [WS_filter_nonzero, WS_mergeRuns,
    congrFun (WS_perm (List.perm_insertionSort fMergeLE l)) k]

theorem WS_of_content_eq {a b : Unit} (h : content a = content b) : WS a = WS b := by
  rw [← WS_canonicalize a, ← WS_canonicalize b, canonicalize_eq_of_content h]

theorem WS_mul (a b : Unit) (k : Pfx × UnitIdentifier) :
    WS (Unit.mul a b) k = WS a k + WS b k := by
  rw [Unit.mul, congrFun (WS_canonicalize _) k, WS_append]

theorem WS_div (a b : Unit) (k : Pfx × UnitIdentifier) :
    WS (Unit.div a b) k = WS a k - WS b k := by
  rw [Unit.div, WS_mul, WS_negmap]
  ring

theorem WS_foldl_mul (l : List Unit) (s : Unit) (k : Pfx × UnitIdentifier) :
    WS (l.foldl Unit.mul s) k = WS s k + (l.map fun u => WS u k).sum := by
  induction l generalizing s with
  | nil => simp
  | cons u t ih =>
    rw [List.foldl_cons, ih, WS_mul, List.map_cons, List.sum_cons]
    ring

/-- The content of the base-unit representation of a unit is its weighted
base content. -/
theorem content_to_base (u : Unit) : content u.to_base_unit_representation.1 = WS u := by
  funext k
  show content (canonicalize (unitProd
    (u.map fun f => Unit.power f.unit_id.corresponding_base_unit f.exponent))) k = WS u k
  rw [content_canonicalize, unitProd, content_foldl_mul, List.map_map]
  rw [show content Unit.unity k = 0 from rfl, zero_add, WS]
  congr 1
  apply List.map_congr_left
  intro f _
  show content (Unit.power f.unit_id.corresponding_base_unit f.exponent) k = _
  rw [content_power]
  ring

/-- Units with equal content have equal base-unit representations (first
component). -/
theorem to_base_eq_of_content {a b : Unit} (h : content a = content b) :
    a.to_base_unit_representation.1 = b.to_base_unit_representation.1 := by
  refine canon_unique (canonicalize_isCanon _) (canonicalize_isCanon _) ?_
  show content a.to_base_unit_representation.1 = content b.to_base_unit_representation.1
  rw [content_to_base, content_to_base, WS_of_content_eq h]

/-! ### Claim C1: the identity and zero branches of convert_to -/

/-- C1: for every quantity q and target unit u, if the unit of q is
canonically equal to u or the value of q is zero, then convert_to succeeds
and returns exactly the value of q paired with u; in particular a zero-valued
quantity converts to any target unit, even of a different dimension. -/
theorem c1_convert_to_identity_or_zero (q : Quantity) (u : Unit)
    (h : Unit.unitEq q.unit u ∨ q.value = 0) :
    q.convert_to u = .ok ⟨q.value, u⟩ := by
  unfold Quantity.convert_to
  exact if_pos h

/-- Witness for C1: the zero-valued quantity of unit meter converts to the
unit second, a different dimension, keeping value zero. -/
theorem c1_convert_to_identity_or_zero_witness :
    Quantity.convert_to ⟨0, Unit.meter⟩ Unit.second = .ok ⟨0, Unit.second⟩ :=
  c1_convert_to_identity_or_zero ⟨0, Unit.meter⟩ Unit.second (Or.inr rfl)

/-! ### Claim C9: quantity multiplication and division are infallible -/

/-- C9: quantity multiplication and division always return ok, with the
values multiplied (resp. divided) and the units multiplied (resp. divided),
even though their return type admits errors. -/
theorem c9_mul_div_infallible (a b : Quantity) :
    a.qmul b = .ok ⟨a.value * b.value, Unit.mul a.unit b.unit⟩ ∧
    a.qdiv b = .ok ⟨a.value / b.value, Unit.div a.unit b.unit⟩ ∧
    (∀ e, a.qmul b ≠ .err e) ∧ (∀ e, a.qdiv b ≠ .err e) :=
  ⟨rfl, rfl, fun _ h => Res.noConfusion h, fun _ h => Res.noConfusion h⟩

/-! ### Claim C5: the sort-key exponent rescaling (code bug)

The spec (and the comment and debug assertion inside sort_key itself) demand
that the exponents be made integral by multiplying with the product of their
denominators; the code multiplies with the product of the numerators
(p.1.numer() in unit.rs line 76).  On integral exponents the two agree after
the gcd step, but on a fractional exponent the code leaves a non-integer,
its debug assertion fails, and the gcd of the truncated entries is zero, so
the release build panics on rational division by zero (modelled here as
division by zero, which yields zero). -/

/-- C5 (code bug): at a derived identifier over meter to the one-half, the
sort key demanded by the claim (scale by the product of the denominators) is
meter with exponent one, but the code scales by the product of the numerators
and leaves the non-integral exponent one-half, violating its own debug
assertion; its gcd of truncated entries is zero and the final division by
zero (a panic in the Rust release build) yields exponent zero here. -/
theorem c5_sort_key_numerator_bug :
    UnitIdentifier.sort_key sqrtMeterId = [("meter".toList, (0 : ℚ))] ∧
    sort_key_spec sqrtMeterId = [("meter".toList, (1 : ℚ))] ∧
    UnitIdentifier.sort_key sqrtMeterId ≠ sort_key_spec sqrtMeterId := by decide

/-! ### Claim C10: full_simplify can panic (code bug)

Two base units that share a name (hence a sort key, i.e. a dimension) but
have different canonical names form one group whose conversion to the chosen
representative fails with IncompatibleUnits -- exactly the situation the TODO
comment on IncompatibleUnits in quantity.rs warns about (multiple base units
for the same dimension, no way to convert between them).  The unwrap in
full_simplify then panics. -/

/-- C10 (code bug): on the quantity one of a unit with two base identifiers
of the same name, the single sort-key group is the whole unit, its
representative conversion returns IncompatibleUnits, and full_simplify hits
the error branch of the unwrapped convert_to call: the model returns none
where the Rust code panics. -/
theorem c10_full_simplify_panics :
    Quantity.full_simplify_opt ⟨1, twoBaseUnit⟩ = none ∧
    Quantity.convert_to (Quantity.from_unit twoBaseUnit)
        (Unit.from_factor ⟨Pfx.noPfx, ⟨"x".toList, "b".toList, .base⟩, 2⟩) =
      .err (.IncompatibleUnits twoBaseUnit
        (Unit.from_factor ⟨Pfx.noPfx, ⟨"x".toList, "b".toList, .base⟩, 2⟩)) := by decide

/-! ### Claim C7: the error contract of power -/

/-- C7: power converts its exponent argument to a dimensionless scalar,
propagating the IncompatibleUnits error of that conversion verbatim; when the
scalar cannot be represented as an exact machine rational it fails with
NonRationalExponent; otherwise it succeeds with the value raised to the
scalar and the unit raised to the rational exponent. -/
theorem c7_power_contract (q e : Quantity) :
    (∀ er, e.as_scalar = .err er →
      q.power e = .err er ∧ er = .IncompatibleUnits e.unit Unit.scalar) ∧
    (∀ s, e.as_scalar = .ok s → ratFromFloat s = none →
      q.power e = .err .NonRationalExponent) ∧
    (∀ s r, e.as_scalar = .ok s → ratFromFloat s = some r →
      q.power e = .ok ⟨Number.pow q.value s, Unit.power q.unit r⟩) := by
  refine ⟨fun er her => ⟨?_, ?_⟩, fun s hs hn => ?_, fun s r hs hr => ?_⟩
  · simp only [Quantity.power, her]
  · unfold Quantity.as_scalar at her
    revert her
    cases hc : e.convert_to Unit.scalar with
    | ok r => intro her; exact absurd her (by simp)
    | err e1 =>
      intro her
      have he : (Res.err e1 : Res ℚ) = Res.err er := her
      cases he
      exact Quantity.convert_to_err e Unit.scalar _ hc
  · simp only [Quantity.power, hs, hn]
  · simp only [Quantity.power, hs, hr]

/-- Witness for C7: all three branches at concrete inputs.  A meter-valued
exponent is rejected with the conversion error carrying the exponent unit and
the scalar unit; the scalar ten to the fortieth exceeds the 128-bit rational
range, so power fails with NonRationalExponent; the scalar three exponent
succeeds and cubes the unit. -/
theorem c7_power_contract_witness :
    Quantity.power ⟨2, Unit.meter⟩ (Quantity.from_unit Unit.second) =
      .err (.IncompatibleUnits Unit.second Unit.scalar) ∧
    Quantity.power ⟨2, Unit.meter⟩ (Quantity.from_scalar ((10 : ℚ) ^ (40 : ℕ))) =
      .err .NonRationalExponent ∧
    Quantity.power ⟨2, Unit.meter⟩ (Quantity.from_scalar 3) =
      .ok ⟨8, Unit.power Unit.meter 3⟩ := by
  refine ⟨?_, ?_, ?_⟩
  · exact ((c7_power_contract ⟨2, Unit.meter⟩ (Quantity.from_unit Unit.second)).1
      (.IncompatibleUnits Unit.second Unit.scalar) (by decide)).1
  · exact (c7_power_contract ⟨2, Unit.meter⟩ _).2.1 ((10 : ℚ) ^ (40 : ℕ))
      (by decide) (by decide)
  · have h := (c7_power_contract ⟨2, Unit.meter⟩ (Quantity.from_scalar 3)).2.2 3 3
      (by decide) (by decide)
    rw [h]
    decide

/-! ### Claim C2: the error condition of convert_to -/

/-- C2: for a quantity with nonzero value whose unit is not canonically equal
to the target, convert_to fails exactly when, after cancelling the common
factors from both sides, the base-unit representations of the two reduced
units are not canonically equal; and the error is always IncompatibleUnits
carrying the original source unit and the target unit. -/
theorem c2_convert_to_incompatible (q : Quantity) (u : Unit)
    (h1 : ¬ Unit.unitEq q.unit u) (h2 : ¬ q.is_zero) :
    ((∃ e, q.convert_to u = .err e) ↔
      ¬ Unit.unitEq
        (canonicalize (Unit.div q.unit (commonUnitFactors q.unit u))).to_base_unit_representation.1
        (canonicalize (Unit.div u (commonUnitFactors q.unit u))).to_base_unit_representation.1) ∧
    (∀ e, q.convert_to u = .err e → e = .IncompatibleUnits q.unit u) := by
  refine ⟨?_, Quantity.convert_to_err q u⟩
  rw [Quantity.convert_to_eq, if_neg (not_or.mpr ⟨h1, h2⟩)]
  by_cases h3 : Unit.unitEq
      (canonicalize (Unit.div q.unit (commonUnitFactors q.unit u))).to_base_unit_representation.1
      (canonicalize (Unit.div u (commonUnitFactors q.unit u))).to_base_unit_representation.1
  · rw [if_pos h3]
    simp [h3]
  · rw [if_neg h3]
    simp [h3]

/-- Witness for C2: converting two meters to seconds fails with the
IncompatibleUnits error carrying meter and second. -/
theorem c2_convert_to_incompatible_witness :
    Quantity.convert_to ⟨2, Unit.meter⟩ Unit.second =
      .err (.IncompatibleUnits Unit.meter Unit.second) := by
  have h := c2_convert_to_incompatible ⟨2, Unit.meter⟩ Unit.second (by decide) (by decide)
  obtain ⟨e, he⟩ := h.1.mpr (by decide)
  rw [h.2 e he] at he
  exact he

/-! ### Claim C8: name_and_aliases -/

/-- The fold of decorator.rs that rebuilds the alias vector equals the last
Aliases decorator's list (mapped through the long-only default), for any
start value mapped from a previous Aliases list or empty. -/
theorem aliases_foldl_eq (ds : List Decorator) (a : List (UName × AcceptsPfx)) :
    ds.foldl
      (fun (acc : List (UName × AcceptsPfx)) d =>
        match d with
        | .aliases l => l.map fun p => (p.1, p.2.getD AcceptsPfx.only_long)
        | _ => acc)
      a =
    match ds.reverse.findSome? (fun d =>
        match d with
        | .aliases l => some l
        | _ => none) with
    | some l => l.map fun p => (p.1, p.2.getD AcceptsPfx.only_long)
    | none => a := by
  induction ds generalizing a with
  | nil => rfl
  | cons d t ih =>
    rw [List.foldl_cons, ih, List.reverse_cons, List.findSome?_append]
    cases d with
    | metricPfxs => cases t.reverse.findSome? _ <;> rfl
    | binaryPfxs => cases t.reverse.findSome? _ <;> rfl
    | aliases l => cases t.reverse.findSome? _ <;> rfl

/-- C8: name_and_aliases yields the aliases of the (last) Aliases decorator,
each paired with its stated policy or long-only when unspecified, prepending
the given name with long-only acceptance exactly when the name does not
already occur verbatim among the aliases. -/
theorem c8_name_and_aliases (name : UName) (ds : List Decorator) :
    name_and_aliases name ds =
      if (aliasView ds).any (fun p => decide (p.1 = name)) then aliasView ds
      else (name, AcceptsPfx.only_long) :: aliasView ds := by
  unfold name_and_aliases
  rw [aliases_foldl_eq]
  unfold aliasView
  cases ds.reverse.findSome? (fun d =>
      match d with
      | .aliases l => some l
      | _ => none) <;> rfl

/-! ### Claim C4: to_base_unit_representation -/

/-- C4: to_base_unit_representation returns the canonicalized product of the
factors' base units raised to the factors' exponents together with the
product of each (prefix factor times conversion factor) raised to the
factor's exponent; the first component is in canonical form, and two units
with the same factors in different orders have equal first components. -/
theorem c4_to_base_representation (u v : Unit) (h : List.Perm u v) :
    u.to_base_unit_representation.1 =
      canonicalize (unitProd (u.map fun f =>
        Unit.power f.unit_id.corresponding_base_unit f.exponent)) ∧
    u.to_base_unit_representation.2 =
      (u.map fun f => Number.pow (f.pfx.factor * f.unit_id.conversion_factor) f.exponent).prod ∧
    canonicalize u.to_base_unit_representation.1 = u.to_base_unit_representation.1 ∧
    u.to_base_unit_representation.1 = v.to_base_unit_representation.1 := by
  refine ⟨rfl, rfl, canonicalize_idem _, ?_⟩
  refine canon_unique (canonicalize_isCanon _) (canonicalize_isCanon _) ?_
  show content u.to_base_unit_representation.1 = content v.to_base_unit_representation.1
  rw [content_to_base, content_to_base, WS_perm h]

/-- Witness for C4: meter times second and second times meter, multiplied as
raw factor lists in the two orders, have the same base-unit representation. -/
theorem c4_to_base_representation_witness :
    (Unit.meter ++ Unit.second).to_base_unit_representation.1 =
      (Unit.second ++ Unit.meter).to_base_unit_representation.1 :=
  (c4_to_base_representation (Unit.meter ++ Unit.second) (Unit.second ++ Unit.meter)
    (by decide)).2.2.2

/-! ### Claim C3: the common factors of convert_to -/

/-- A fold whose step multiplies in one optional factor per element equals
the canonicalized concatenation of the picked factors, for any start unit
fixed by canonicalization. -/
theorem foldl_mulpick (pick : UnitFactor → Option UnitFactor)
    (step : Unit → UnitFactor → Unit)
    (hstep : ∀ acc f, step acc f =
      match pick f with
      | some x => Unit.mul acc (Unit.from_factor x)
      | none => acc) :
    ∀ (L : List UnitFactor) (acc : Unit), canonicalize acc = acc →
      L.foldl step acc = canonicalize (acc ++ L.filterMap pick) := by
  intro L
  induction L with
  | nil =>
    intro acc h
    rw [List.filterMap_nil, List.append_nil, h, List.foldl_nil]
  | cons f t ih =>
    intro acc h
    rw [List.foldl_cons, hstep]
    cases hp : pick f with
    | none =>
      rw [ih acc h, List.filterMap_cons_none hp]
    | some x =>
      rw [ih (Unit.mul acc (Unit.from_factor x)) (canonicalize_idem _),
        List.filterMap_cons_some hp]
      apply canonicalize_eq_of_content
      funext k
      have hx : content (Unit.from_factor x) k =
          (if x.mergeKey = k then x.exponent else 0) := by
        rw [show content (Unit.from_factor x) k =
          (if x.mergeKey = k then x.exponent else 0) + content [] k from content_cons x [] k,
          content_nil, add_zero]
      rw [content_append, content_mul, hx, content_append, content_cons]
      ring

/-- C3: the common factors computed inside convert_to are exactly the set the
claim describes. -/
theorem c3_common_factors (s t : Unit) :
    commonUnitFactors s t = commonUnitFactorsSpec s t := by
  unfold commonUnitFactors commonUnitFactorsSpec
  have hstep : ∀ (acc : Unit) (f : UnitFactor),
      (match (canonicalize t).find?
          (fun g => decide (f.pfx = g.pfx ∧ f.unit_id = g.unit_id)) with
        | some other =>
          if (0 : ℚ) < f.exponent ∧ (0 : ℚ) < other.exponent then
            Unit.mul acc (Unit.from_factor { f with exponent := min f.exponent other.exponent })
          else if f.exponent < (0 : ℚ) ∧ other.exponent < (0 : ℚ) then
            Unit.mul acc (Unit.from_factor { f with exponent := max f.exponent other.exponent })
          else acc
        | none => acc) =
      match (match (canonicalize t).find?
          (fun g => decide (f.pfx = g.pfx ∧ f.unit_id = g.unit_id)) with
        | some other =>
          if (0 : ℚ) < f.exponent ∧ (0 : ℚ) < other.exponent then
            some { f with exponent := min f.exponent other.exponent }
          else if f.exponent < (0 : ℚ) ∧ other.exponent < (0 : ℚ) then
            some { f with exponent := max f.exponent other.exponent }
          else none
        | none => none) with
      | some x => Unit.mul acc (Unit.from_factor x)
      | none => acc := by
    intro acc f
    cases hfind : (canonicalize t).find?
        (fun g => decide (f.pfx = g.pfx ∧ f.unit_id = g.unit_id)) with
    | none => rfl
    | some other =>
      show (if (0 : ℚ) < f.exponent ∧ (0 : ℚ) < other.exponent then
          Unit.mul acc (Unit.from_factor { f with exponent := min f.exponent other.exponent })
        else if f.exponent < (0 : ℚ) ∧ other.exponent < (0 : ℚ) then
          Unit.mul acc (Unit.from_factor { f with exponent := max f.exponent other.exponent })
        else acc) =
        match (if (0 : ℚ) < f.exponent ∧ (0 : ℚ) < other.exponent then
            some { f with exponent := min f.exponent other.exponent }
          else if f.exponent < (0 : ℚ) ∧ other.exponent < (0 : ℚ) then
            some { f with exponent := max f.exponent other.exponent }
          else none) with
        | some x => Unit.mul acc (Unit.from_factor x)
        | none => acc
      by_cases h1 : (0 : ℚ) < f.exponent ∧ (0 : ℚ) < other.exponent
      · rw [if_pos h1, if_pos h1]
      · rw [if_neg h1, if_neg h1]
        by_cases h2 : f.exponent < (0 : ℚ) ∧ other.exponent < (0 : ℚ)
        · rw [if_pos h2, if_pos h2]
        · rw [if_neg h2, if_neg h2]
  exact foldl_mulpick _ _ hstep (canonicalize s) Unit.scalar rfl

/-! ### Helper lemmas for the analysis of full_simplify -/

theorem convert_to_ok_unit (q : Quantity) (u : Unit) (r : Quantity)
    (h : q.convert_to u = .ok r) : r.unit = u := by
  rw [Quantity.convert_to_eq] at h
  by_cases h1 : Unit.unitEq q.unit u ∨ q.is_zero
  · rw [if_pos h1] at h
    cases h
    rfl
  · rw [if_neg h1] at h
    by_cases h2 : Unit.unitEq
        (canonicalize (Unit.div q.unit (commonUnitFactors q.unit u))).to_base_unit_representation.1
        (canonicalize (Unit.div u (commonUnitFactors q.unit u))).to_base_unit_representation.1
    · rw [if_pos h2] at h
      cases h
      rfl
    · rw [if_neg h2] at h
      exact absurd h (by simp)

theorem commonUnitFactors_scalar (x : Unit) : commonUnitFactors x Unit.scalar = Unit.scalar := by
  unfold commonUnitFactors
  generalize canonicalize x = L
  induction L with
  | nil => rfl
  | cons f t ih => exact ih

/-- A unit factor keeps its merge key when only its exponent is replaced. -/
theorem mergeKey_update (f : UnitFactor) (e : ℚ) :
    ({ f with exponent := e } : UnitFactor).mergeKey = f.mergeKey := rfl

/-- removed_exponent only looks at the identifier, so it ignores exponent
updates. -/
theorem removed_exponent_update (f : UnitFactor) (e : ℚ) :
    removed_exponent { f with exponent := e } = removed_exponent f := rfl

theorem eta_update (f : UnitFactor) : ({ f with exponent := f.exponent } : UnitFactor) = f := rfl

theorem maxByLast_mem (cmp : UnitFactor → UnitFactor → Ordering) (l : List UnitFactor)
    (r : UnitFactor) (h : maxByLast cmp l = some r) : r ∈ l := by
  cases l with
  | nil => cases h
  | cons f t =>
    have hr : r = t.foldl (fun acc x => if cmp acc x = .gt then acc else x) f := by
      cases h
      rfl
    subst hr
    clear h
    induction t generalizing f with
    | nil => simp
    | cons g t ih =>
      rw [List.foldl_cons]
      by_cases hc : cmp f g = .gt
      · rw [if_pos hc]
        rcases List.mem_cons.mp (ih f) with h | h
        · simp [h]
        · simp [List.mem_cons_of_mem _ h]
      · rw [if_neg hc]
        rcases List.mem_cons.mp (ih g) with h | h
        · simp [h]
        · simp [List.mem_cons_of_mem _ h]

/-- mergeRuns is the identity on lists with pairwise distinct merge keys. -/
theorem mergeRuns_of_pairwise {l : List UnitFactor}
    (hp : l.Pairwise fun a b => a.mergeKey ≠ b.mergeKey) : mergeRuns l = l := by
  cases l with
  | nil => rfl
  | cons f t =>
    rw [mergeRuns]
    induction t generalizing f with
    | nil => rfl
    | cons g t ih =>
      rw [List.pairwise_cons] at hp
      rw [mergeRunsGo, if_neg]
      · rw [ih g hp.2]
      · intro hc
        exact hp.1 g (by simp) (by simp [UnitFactor.mergeKey, hc.1, hc.2])

/-- Factors of a canonical form of a list with pairwise distinct merge keys
are factors of the list with nonzero exponent. -/
theorem mem_canonicalize_of_pairwise {l : Unit}
    (hp : l.Pairwise fun a b => a.mergeKey ≠ b.mergeKey) :
    ∀ f ∈ canonicalize l, f ∈ l ∧ f.exponent ≠ 0 := by
  intro f hf
  rw [canonicalize] at hf
  rw [List.mem_insertionSort, List.mem_filter] at hf
  obtain ⟨hf1, hf2⟩ := hf
  have hsymm : Symmetric fun a b : UnitFactor => a.mergeKey ≠ b.mergeKey := by
    intro x y hxy e
    exact hxy e.symm
  have hp' : (l.insertionSort fMergeLE).Pairwise fun a b => a.mergeKey ≠ b.mergeKey :=
    (List.Perm.pairwise_iff @hsymm (List.perm_insertionSort fMergeLE l)).mpr hp
  rw [mergeRuns_of_pairwise hp'] at hf1
  exact ⟨(List.mem_insertionSort _).mp hf1, of_decide_eq_true hf2⟩

/-- Every factor of a canonical form shares prefix and identifier with a
factor of the input list. -/
theorem mem_canonicalize_key (l : Unit) :
    ∀ f ∈ canonicalize l, ∃ f₀ ∈ l, f.mergeKey = f₀.mergeKey := by
  intro f hf
  rw [canonicalize, List.mem_insertionSort, List.mem_filter] at hf
  obtain ⟨hf1, -⟩ := hf
  have hmem : ∀ g ∈ mergeRuns (l.insertionSort fMergeLE),
      ∃ g₀ ∈ l.insertionSort fMergeLE, g.mergeKey = g₀.mergeKey := by
    cases hs : l.insertionSort fMergeLE with
    | nil => simp [mergeRuns]
    | cons x t =>
      intro g hg
      exact mergeRunsGo_keys x t g hg
  obtain ⟨g₀, hg₀, hk⟩ := hmem f hf1
  exact ⟨g₀, (List.mem_insertionSort _).mp hg₀, hk⟩

/-- Canonicalization of a one-factor list with nonzero exponent. -/
theorem canonicalize_singleton {f : UnitFactor} (h : f.exponent ≠ 0) :
    canonicalize [f] = [f] := by
  rw [canonicalize]
  rw [show List.insertionSort fMergeLE [f] = [f] from rfl]
  rw [show mergeRuns [f] = [f] from rfl]
  rw [List.filter_cons, if_pos (by simp [h])]
  rfl

/-! ### Chunk structure of the group-by -/

theorem chunkByKey_cons_nil {t : List UnitFactor} (f : UnitFactor) (hc : chunkByKey t = []) :
    chunkByKey (f :: t) = [[f]] := by
  rw [chunkByKey, hc]

theorem chunkByKey_cons_nilc {t : List UnitFactor} (f : UnitFactor)
    {rest : List (List UnitFactor)} (hc : chunkByKey t = [] :: rest) :
    chunkByKey (f :: t) = [f] :: rest := by
  rw [chunkByKey, hc]

theorem chunkByKey_cons_cons {t : List UnitFactor} (f : UnitFactor) {g : UnitFactor}
    {gs : List UnitFactor} {rest : List (List UnitFactor)}
    (hc : chunkByKey t = (g :: gs) :: rest) :
    chunkByKey (f :: t) =
      if f.unit_id.sort_key = g.unit_id.sort_key then (f :: g :: gs) :: rest
      else [f] :: (g :: gs) :: rest := by
  rw [chunkByKey, hc]

theorem chunkByKey_flatten (l : List UnitFactor) : (chunkByKey l).flatten = l := by
  induction l with
  | nil => rfl
  | cons f t ih =>
    cases hc : chunkByKey t with
    | nil =>
      rw [hc] at ih
      simp only [List.flatten_nil] at ih
      rw [chunkByKey_cons_nil f hc]
      simp [← ih]
    | cons c rest =>
      cases c with
      | nil =>
        rw [hc] at ih
        simp only [List.flatten_cons, List.nil_append] at ih
        rw [chunkByKey_cons_nilc f hc]
        simp [List.flatten_cons, ih]
      | cons g gs =>
        rw [hc] at ih
        rw [chunkByKey_cons_cons f hc]
        by_cases hk : f.unit_id.sort_key = g.unit_id.sort_key
        · rw [if_pos hk]
          simp only [List.flatten_cons] at ih ⊢
          simp [ih]
        · rw [if_neg hk]
          simp only [List.flatten_cons] at ih ⊢
          simp [ih]

theorem chunkByKey_uniform (l : List UnitFactor) :
    ∀ c ∈ chunkByKey l, ∀ f ∈ c, ∀ g ∈ c, f.unit_id.sort_key = g.unit_id.sort_key := by
  induction l with
  | nil => simp [chunkByKey]
  | cons f t ih =>
    cases hc : chunkByKey t with
    | nil =>
      rw [chunkByKey_cons_nil f hc]
      intro c hcmem x hx y hy
      simp only [List.mem_singleton] at hcmem
      subst hcmem
      simp only [List.mem_singleton] at hx hy
      rw [hx, hy]
    | cons c0 rest =>
      cases c0 with
      | nil =>
        rw [chunkByKey_cons_nilc f hc]
        intro c hcmem x hx y hy
        rcases List.mem_cons.mp hcmem with h | h
        · subst h
          simp only [List.mem_singleton] at hx hy
          rw [hx, hy]
        · exact ih _ (by rw [hc]; exact List.mem_cons_of_mem _ h) x hx y hy
      | cons g gs =>
        rw [chunkByKey_cons_cons f hc]
        by_cases hk : f.unit_id.sort_key = g.unit_id.sort_key
        · rw [if_pos hk]
          intro c hcmem x hx y hy
          rcases List.mem_cons.mp hcmem with h | h
          · subst h
            have huni := ih (g :: gs) (by rw [hc]; simp)
            have key_of : ∀ z ∈ f :: g :: gs, z.unit_id.sort_key = f.unit_id.sort_key := by
              intro z hz
              rcases List.mem_cons.mp hz with h1 | h1
              · rw [h1]
              · rw [huni z h1 g (by simp), ← hk]
            rw [key_of x hx, key_of y hy]
          · exact ih _ (by rw [hc]; exact List.mem_cons_of_mem _ h) x hx y hy
        · rw [if_neg hk]
          intro c hcmem x hx y hy
          rcases List.mem_cons.mp hcmem with h | h
          · subst h
            simp only [List.mem_singleton] at hx hy
            rw [hx, hy]
          · exact ih _ (by rw [hc]; exact h) x hx y hy

/-! ### Scalar conversion classification -/

theorem canonicalize_div_scalar (u : Unit) :
    canonicalize (Unit.div u Unit.scalar) = canonicalize u := by
  show canonicalize (canonicalize (u ++ [])) = canonicalize u
  rw [List.append_nil, canonicalize_idem]

theorem to_base_fst_canonicalize (u : Unit) :
    canonicalize u.to_base_unit_representation.1 = u.to_base_unit_representation.1 := by
  show canonicalize (canonicalize _) = _
  exact canonicalize_idem _

theorem content_eq_of_unitEq {a b : Unit} (h : Unit.unitEq a b) : content a = content b := by
  have h' : canonicalize a = canonicalize b := h
  rw [← content_canonicalize a, ← content_canonicalize b, h']

/-- A failed conversion to scalar means the base-unit representation of the
canonicalized source unit is not empty. -/
theorem convert_to_scalar_err_base {p : Quantity} {e : QuantityError}
    (h : p.convert_to Unit.scalar = .err e) :
    (canonicalize p.unit).to_base_unit_representation.1 ≠ [] := by
  rw [Quantity.convert_to_eq] at h
  by_cases h1 : Unit.unitEq p.unit Unit.scalar ∨ p.is_zero
  · rw [if_pos h1] at h
    exact absurd h (by simp)
  · rw [if_neg h1] at h
    by_cases h2 : Unit.unitEq
        (canonicalize (Unit.div p.unit
          (commonUnitFactors p.unit Unit.scalar))).to_base_unit_representation.1
        (canonicalize (Unit.div Unit.scalar
          (commonUnitFactors p.unit Unit.scalar))).to_base_unit_representation.1
    · rw [if_pos h2] at h
      exact absurd h (by simp)
    · intro hnil
      apply h2
      show Unit.unitEq _ _
      rw [commonUnitFactors_scalar, canonicalize_div_scalar, hnil]
      rfl

/-- A scalar conversion of a nonzero-valued quantity whose canonicalized unit
has a nonempty base-unit representation fails with IncompatibleUnits. -/
theorem convert_to_scalar_err_of_base {p : Quantity} (hv : p.value ≠ 0)
    (hb : (canonicalize p.unit).to_base_unit_representation.1 ≠ []) :
    p.convert_to Unit.scalar = .err (.IncompatibleUnits p.unit Unit.scalar) := by
  have h1 : ¬(Unit.unitEq p.unit Unit.scalar ∨ p.is_zero) := by
    rintro (h | h)
    · apply hb
      have h' : canonicalize p.unit = ([] : Unit) := h
      rw [h']
      rfl
    · exact hv h
  have h2 : ¬ Unit.unitEq
      (canonicalize (Unit.div p.unit
        (commonUnitFactors p.unit Unit.scalar))).to_base_unit_representation.1
      (canonicalize (Unit.div Unit.scalar
        (commonUnitFactors p.unit Unit.scalar))).to_base_unit_representation.1 := by
    rw [commonUnitFactors_scalar, canonicalize_div_scalar]
    intro h
    apply hb
    have h' : canonicalize
        ((canonicalize p.unit).to_base_unit_representation.1) = ([] : Unit) := h
    rw [to_base_fst_canonicalize] at h'
    exact h'
  rw [Quantity.convert_to_eq, if_neg h1, if_neg h2]

/-! ### Inversion of the full_simplify loop -/

theorem processGroup_some {g : List UnitFactor} {v : ℚ} {t : UnitFactor}
    (h : processGroup g = some (v, t)) :
    ∃ rep conv, maxByLast repCmp (Unit.from_factors g) = some rep ∧
      t = pgTarget rep (Unit.from_factors g) ∧
      Quantity.convert_to (Quantity.from_unit (Unit.from_factors g))
        (Unit.from_factor t) = .ok conv ∧
      v = conv.value := by
  have h0 : (match maxByLast repCmp (Unit.from_factors g) with
    | none => (none : Option (ℚ × UnitFactor))
    | some rep =>
      match Quantity.convert_to (Quantity.from_unit (Unit.from_factors g))
          (Unit.from_factor (pgTarget rep (Unit.from_factors g))) with
      | .err _ => none
      | .ok conv => some (conv.value, pgTarget rep (Unit.from_factors g))) = some (v, t) := h
  cases hrep : maxByLast repCmp (Unit.from_factors g) with
  | none =>
    rw [hrep] at h0
    exact absurd (show (none : Option (ℚ × UnitFactor)) = some (v, t) from h0) (by simp)
  | some rep =>
    rw [hrep] at h0
    have h' : (match Quantity.convert_to (Quantity.from_unit (Unit.from_factors g))
        (Unit.from_factor (pgTarget rep (Unit.from_factors g))) with
      | Res.err _ => (none : Option (ℚ × UnitFactor))
      | Res.ok conv => some (conv.value, pgTarget rep (Unit.from_factors g))) = some (v, t) := h0
    cases hconv : Quantity.convert_to (Quantity.from_unit (Unit.from_factors g))
        (Unit.from_factor (pgTarget rep (Unit.from_factors g))) with
    | err e =>
      rw [hconv] at h'
      exact absurd (show (none : Option (ℚ × UnitFactor)) = some (v, t) from h') (by simp)
    | ok conv =>
      rw [hconv] at h'
      have h2 : (conv.value, pgTarget rep (Unit.from_factors g)) = (v, t) :=
        Option.some.inj (show some (conv.value, pgTarget rep (Unit.from_factors g))
          = some (v, t) from h')
      rw [Prod.mk.injEq] at h2
      obtain ⟨hv, ht⟩ := h2
      refine ⟨rep, conv, rfl, ht.symm, ?_, hv.symm⟩
      rw [ht] at hconv
      exact hconv

theorem maxByLast_singleton (cmp : UnitFactor → UnitFactor → Ordering) (f : UnitFactor) :
    maxByLast cmp [f] = some f := rfl

theorem pgTarget_unit_id (rep : UnitFactor) (G : Unit) :
    (pgTarget rep G).unit_id = rep.unit_id := rfl

/-- A target factor with nonzero exponent comes from a representative with
nonzero removed exponent (all summands divide by the removed exponent of the
representative, and in the model a division by zero is zero). -/
theorem pgTarget_removed_ne_zero {rep : UnitFactor} {G : Unit}
    (h : (pgTarget rep G).exponent ≠ 0) : removed_exponent rep ≠ 0 := by
  intro hz
  apply h
  show (G.map fun f => f.exponent * removed_exponent f / removed_exponent rep).sum = 0
  apply List.sum_eq_zero
  intro x hx
  rw [List.mem_map] at hx
  obtain ⟨f, -, hf⟩ := hx
  rw [← hf, hz, div_zero]

/-- A successful group conversion preserves the weighted base content: the
target factor has the same base decomposition as the group. -/
theorem processGroup_WS {g : List UnitFactor} {v : ℚ} {t : UnitFactor}
    (h : processGroup g = some (v, t)) (k : Pfx × UnitIdentifier) :
    WS (Unit.from_factor t) k = WS g k := by
  obtain ⟨rep, conv, hrep, ht, hconv, hval⟩ := processGroup_some h
  rw [Quantity.convert_to_eq] at hconv
  by_cases h1 : Unit.unitEq (Quantity.from_unit (Unit.from_factors g)).unit
      (Unit.from_factor t) ∨ (Quantity.from_unit (Unit.from_factors g)).is_zero
  · rcases h1 with h1 | h1
    · have hEq : canonicalize (Unit.from_factors g) = canonicalize (Unit.from_factor t) := h1
      calc WS (Unit.from_factor t) k
          = WS (canonicalize (Unit.from_factor t)) k := (congrFun (WS_canonicalize _) k).symm
        _ = WS (canonicalize (Unit.from_factors g)) k := by rw [hEq]
        _ = WS (Unit.from_factors g) k := congrFun (WS_canonicalize _) k
        _ = WS g k := congrFun (WS_canonicalize g) k
    · exact absurd (show (1 : ℚ) = 0 from h1) one_ne_zero
  · rw [if_neg h1] at hconv
    by_cases h2 : Unit.unitEq
        (canonicalize (Unit.div (Quantity.from_unit (Unit.from_factors g)).unit
          (commonUnitFactors (Quantity.from_unit (Unit.from_factors g)).unit
            (Unit.from_factor t)))).to_base_unit_representation.1
        (canonicalize (Unit.div (Unit.from_factor t)
          (commonUnitFactors (Quantity.from_unit (Unit.from_factors g)).unit
            (Unit.from_factor t)))).to_base_unit_representation.1
    · have h3 := content_eq_of_unitEq h2
      rw [content_to_base, content_to_base, WS_canonicalize, WS_canonicalize] at h3
      have h6 := congrFun h3 k
      rw [WS_div, WS_div] at h6
      have h7 : WS (Quantity.from_unit (Unit.from_factors g)).unit k
          = WS (Unit.from_factor t) k := by linarith
      calc WS (Unit.from_factor t) k
          = WS (Quantity.from_unit (Unit.from_factors g)).unit k := h7.symm
        _ = WS (Unit.from_factors g) k := rfl
        _ = WS g k := congrFun (WS_canonicalize g) k
    · rw [if_neg h2] at hconv
      exact absurd hconv (by simp)

theorem simplifyGroups_nil_inv {c : ℚ} {s : Unit} {C : ℚ} {S : Unit}
    (h : simplifyGroups [] c s = some (C, S)) : c = C ∧ s = S := by
  have h' : (some (c, s) : Option (ℚ × Unit)) = some (C, S) := h
  exact Prod.ext_iff.mp (Option.some.inj h')

theorem simplifyGroups_cons_inv {g : List UnitFactor} {rest : List (List UnitFactor)}
    {c : ℚ} {s : Unit} {C : ℚ} {S : Unit}
    (h : simplifyGroups (g :: rest) c s = some (C, S)) :
    ∃ v t, processGroup g = some (v, t) ∧
      simplifyGroups rest (c * v) (Unit.mul s (Unit.from_factor t)) = some (C, S) := by
  have h0 : (match processGroup g with
    | none => (none : Option (ℚ × Unit))
    | some (v, t) =>
        simplifyGroups rest (c * v) (Unit.mul s (Unit.from_factor t))) = some (C, S) := h
  cases hp : processGroup g with
  | none =>
    rw [hp] at h0
    exact absurd (show (none : Option (ℚ × Unit)) = some (C, S) from h0) (by simp)
  | some vt =>
    obtain ⟨v, t⟩ := vt
    rw [hp] at h0
    exact ⟨v, t, rfl, h0⟩

/-- The simplified unit accumulates exactly the weighted base content of the
processed groups. -/
theorem simplifyGroups_WS (groups : List (List UnitFactor)) :
    ∀ c s C S, simplifyGroups groups c s = some (C, S) →
      ∀ k, WS S k = WS s k + (groups.map fun g => WS g k).sum := by
  induction groups with
  | nil =>
    intro c s C S h k
    obtain ⟨-, h2⟩ := simplifyGroups_nil_inv h
    rw [← h2]
    simp
  | cons g rest ih =>
    intro c s C S h k
    obtain ⟨v, t, hp, h'⟩ := simplifyGroups_cons_inv h
    rw [ih _ _ _ _ h' k, WS_mul, processGroup_WS hp k, List.map_cons, List.sum_cons]
    ring

/-- The simplified unit is the fold of the target factors of the groups. -/
theorem simplifyGroups_factors (groups : List (List UnitFactor)) :
    ∀ c s C S, simplifyGroups groups c s = some (C, S) →
      ∃ ts : List UnitFactor,
        List.Forall₂ (fun g t => ∃ v, processGroup g = some (v, t)) groups ts ∧
        S = ts.foldl (fun acc t => Unit.mul acc (Unit.from_factor t)) s := by
  induction groups with
  | nil =>
    intro c s C S h
    obtain ⟨-, h2⟩ := simplifyGroups_nil_inv h
    exact ⟨[], List.Forall₂.nil, h2.symm⟩
  | cons g rest ih =>
    intro c s C S h
    obtain ⟨v, t, hp, h'⟩ := simplifyGroups_cons_inv h
    obtain ⟨ts, hf, hS⟩ := ih _ _ _ _ h'
    exact ⟨t :: ts, List.Forall₂.cons ⟨v, hp⟩ hf, by rw [hS, List.foldl_cons]⟩

/-! ### Sort-key separation of the groups -/

theorem skLex_inj : Function.Injective skLex :=
  List.map_injective_iff.mpr fun a b h => toLex_inj.mp h

theorem fNatLE_sk_le {a b : UnitFactor} (h : fNatLE a b) :
    skLex a.unit_id.sort_key ≤ skLex b.unit_id.sort_key := by
  have h' : toLex (skLex a.unit_id.sort_key,
        toLex (a.pfx.key, toLex (a.exponent, a.unit_id.structKey)))
      ≤ toLex (skLex b.unit_id.sort_key,
        toLex (b.pfx.key, toLex (b.exponent, b.unit_id.structKey))) := h
  rcases (Prod.Lex.le_iff _ _).mp h' with h1 | h1
  · exact le_of_lt h1
  · exact le_of_eq h1.1

theorem fNatLE_sk_lt {a b : UnitFactor} (h : fNatLE a b)
    (hne : a.unit_id.sort_key ≠ b.unit_id.sort_key) :
    skLex a.unit_id.sort_key < skLex b.unit_id.sort_key :=
  lt_of_le_of_ne (fNatLE_sk_le h) fun he => hne (skLex_inj he)

theorem chunkByKey_mem {l : List UnitFactor} {c : List UnitFactor} (hc : c ∈ chunkByKey l)
    {x : UnitFactor} (hx : x ∈ c) : x ∈ l := by
  rw [← chunkByKey_flatten l]
  exact List.mem_flatten.mpr ⟨c, hc, hx⟩

theorem chunkByKey_ne_nil : ∀ l : List UnitFactor, ∀ c ∈ chunkByKey l, c ≠ [] := by
  intro l
  induction l with
  | nil => intro c hc; cases hc
  | cons f t ih =>
    cases hc : chunkByKey t with
    | nil =>
      rw [chunkByKey_cons_nil f hc]
      intro c hcm
      simp only [List.mem_singleton] at hcm
      subst hcm
      simp
    | cons c0 rest =>
      cases c0 with
      | nil => exact (ih [] (by rw [hc]; simp) rfl).elim
      | cons g gs =>
        rw [chunkByKey_cons_cons f hc]
        by_cases hk : f.unit_id.sort_key = g.unit_id.sort_key
        · rw [if_pos hk]
          intro c hcm
          rcases List.mem_cons.mp hcm with h | h
          · subst h; simp
          · exact ih c (by rw [hc]; exact List.mem_cons_of_mem _ h)
        · rw [if_neg hk]
          intro c hcm
          rcases List.mem_cons.mp hcm with h | h
          · subst h; simp
          · exact ih c (by rw [hc]; exact h)

/-- For a list sorted in the natural factor order the sort-key groups have
pairwise distinct sort keys: the groups collect all equal consecutive keys and
the key sequence is monotone. -/
theorem chunkByKey_pairwise {l : List UnitFactor} (hs : List.Sorted fNatLE l) :
    (chunkByKey l).Pairwise fun c d =>
      ∀ x ∈ c, ∀ y ∈ d, x.unit_id.sort_key ≠ y.unit_id.sort_key := by
  induction l with
  | nil => exact List.Pairwise.nil
  | cons f t ih =>
    rw [List.sorted_cons] at hs
    have iht := ih hs.2
    cases hc : chunkByKey t with
    | nil =>
      rw [chunkByKey_cons_nil f hc]
      exact List.pairwise_singleton _ _
    | cons c0 rest =>
      cases c0 with
      | nil => exact ((chunkByKey_ne_nil t) [] (by rw [hc]; simp) rfl).elim
      | cons g gs =>
        rw [hc] at iht
        have huni := chunkByKey_uniform t
        have ht : (g :: gs) ++ rest.flatten = t := by
          rw [← List.flatten_cons, ← hc, chunkByKey_flatten]
        rw [chunkByKey_cons_cons f hc]
        by_cases hk : f.unit_id.sort_key = g.unit_id.sort_key
        · rw [if_pos hk]
          rw [List.pairwise_cons] at iht ⊢
          refine ⟨?_, iht.2⟩
          intro d hd x hx y hy
          have hxg : x.unit_id.sort_key = g.unit_id.sort_key := by
            rcases List.mem_cons.mp hx with h1 | h1
            · rw [h1, hk]
            · exact huni (g :: gs) (by rw [hc]; simp) x h1 g (by simp)
          rw [hxg]
          exact iht.1 d hd g (by simp) y hy
        · rw [if_neg hk]
          refine List.pairwise_cons.mpr ⟨?_, iht⟩
          intro d hd x hx y hy
          rw [List.mem_singleton] at hx
          subst hx
          rcases List.mem_cons.mp hd with h1 | h1
          · subst h1
            have hyg : y.unit_id.sort_key = g.unit_id.sort_key :=
              huni (g :: gs) (by rw [hc]; simp) y hy g (by simp)
            rw [hyg]
            exact hk
          · have hymem : y ∈ rest.flatten := List.mem_flatten.mpr ⟨d, h1, hy⟩
            have hgt : g ∈ t := by rw [← ht]; simp
            have h1f : skLex x.unit_id.sort_key < skLex g.unit_id.sort_key :=
              fNatLE_sk_lt (hs.1 g hgt) hk
            have hst : List.Pairwise fNatLE ((g :: gs) ++ rest.flatten) := by
              rw [ht]; exact hs.2
            have hgy : fNatLE g y :=
              (List.pairwise_append.mp hst).2.2 g (by simp) y hymem
            have hky : g.unit_id.sort_key ≠ y.unit_id.sort_key :=
              (List.pairwise_cons.mp iht).1 d h1 g (by simp) y hy
            have h2f : skLex g.unit_id.sort_key < skLex y.unit_id.sort_key :=
              fNatLE_sk_lt hgy hky
            intro he
            rw [he] at h1f
            exact absurd (h1f.trans h2f) (lt_irrefl _)

theorem chunkByKey_of_pairwise {l : List UnitFactor}
    (hp : l.Pairwise fun a b => a.unit_id.sort_key ≠ b.unit_id.sort_key) :
    chunkByKey l = l.map fun f => [f] := by
  induction l with
  | nil => rfl
  | cons f t ih =>
    rw [List.pairwise_cons] at hp
    have ht := ih hp.2
    cases t with
    | nil => rw [chunkByKey_cons_nil f (by rfl)]; rfl
    | cons g t2 =>
      rw [List.map_cons] at ht
      rw [chunkByKey_cons_cons f ht, if_neg (hp.1 g (by simp)), List.map_cons, List.map_cons]

/-! ### Transfer along Forall₂ -/

theorem forall2_mem_right {α β : Type} {R : α → β → Prop} {gs : List α} {ts : List β}
    (h : List.Forall₂ R gs ts) : ∀ b ∈ ts, ∃ a ∈ gs, R a b := by
  induction h with
  | nil => intro b hb; cases hb
  | cons hR hf ih =>
    intro b hb
    rcases List.mem_cons.mp hb with h1 | h1
    · subst h1; exact ⟨_, by simp, hR⟩
    · obtain ⟨a, ha, hRa⟩ := ih b h1
      exact ⟨a, List.mem_cons_of_mem _ ha, hRa⟩

theorem pairwise_of_forall2 {α β : Type} {R : α → β → Prop} {P : α → α → Prop}
    {Q : β → β → Prop} (himp : ∀ a b a2 b2, R a b → R a2 b2 → P a a2 → Q b b2)
    {gs : List α} {ts : List β} (hf : List.Forall₂ R gs ts) (hp : gs.Pairwise P) :
    ts.Pairwise Q := by
  induction hf with
  | nil => exact List.Pairwise.nil
  | cons hR hf2 ih =>
    rw [List.pairwise_cons] at hp
    refine List.pairwise_cons.mpr ⟨?_, ih hp.2⟩
    intro b2 hb2
    obtain ⟨a2, ha2, hR2⟩ := forall2_mem_right hf2 b2 hb2
    exact himp _ _ _ _ hR hR2 (hp.1 a2 ha2)

/-! ### Content accounting of the accumulated unit -/

theorem content_singleton (t : UnitFactor) (k : Pfx × UnitIdentifier) :
    content [t] k = if t.mergeKey = k then t.exponent else 0 := by
  rw [show ([t] : Unit) = t :: [] from rfl, content_cons, content_nil, add_zero]

theorem content_foldl_factor (ts : List UnitFactor) :
    ∀ (s : Unit) (k : Pfx × UnitIdentifier),
      content (ts.foldl (fun acc t => Unit.mul acc (Unit.from_factor t)) s) k =
        content s k + (ts.map fun t => content [t] k).sum := by
  induction ts with
  | nil => intro s k; simp
  | cons t ts ih =>
    intro s k
    rw [List.foldl_cons, ih, content_mul, List.map_cons, List.sum_cons,
      show content (Unit.from_factor t) k = content [t] k from rfl]
    ring

theorem content_sum_singletons (l : Unit) (k : Pfx × UnitIdentifier) :
    (l.map fun f => content [f] k).sum = content l k := by
  induction l with
  | nil => rfl
  | cons f t ih =>
    rw [List.map_cons, List.sum_cons, ih, content_singleton, content_cons]

/-! ### Identity processing of canonical singletons -/

theorem processGroup_singleton {f : UnitFactor} (hexp : f.exponent ≠ 0)
    (hrem : removed_exponent f ≠ 0) : processGroup [f] = some (1, f) := by
  have h2 : Unit.from_factors [f] = [f] := canonicalize_singleton hexp
  have h1 : pgTarget f [f] = f := by
    show ({ f with exponent :=
      ([f].map fun x => x.exponent * removed_exponent x / removed_exponent f).sum } : UnitFactor) = f
    rw [show ([f].map fun x => x.exponent * removed_exponent x / removed_exponent f).sum
        = f.exponent * removed_exponent f / removed_exponent f from by simp,
      mul_div_cancel_right₀ _ hrem]
  have h3 : Quantity.convert_to (Quantity.from_unit [f]) (Unit.from_factor f)
      = .ok ⟨1, [f]⟩ := by
    rw [Quantity.convert_to_eq,
      if_pos (Or.inl (rfl : canonicalize [f] = canonicalize [f]) :
        Unit.unitEq (Quantity.from_unit [f]).unit (Unit.from_factor f) ∨
          (Quantity.from_unit [f]).is_zero)]
    rfl
  show (match maxByLast repCmp (Unit.from_factors [f]) with
    | none => (none : Option (ℚ × UnitFactor))
    | some rep =>
      match Quantity.convert_to (Quantity.from_unit (Unit.from_factors [f]))
          (Unit.from_factor (pgTarget rep (Unit.from_factors [f]))) with
      | .err _ => none
      | .ok conv => some (conv.value, pgTarget rep (Unit.from_factors [f]))) = some (1, f)
  rw [h2]
  show (match Quantity.convert_to (Quantity.from_unit [f])
      (Unit.from_factor (pgTarget f [f])) with
    | Res.err _ => (none : Option (ℚ × UnitFactor))
    | Res.ok conv => some (conv.value, pgTarget f [f])) = some (1, f)
  rw [h1, h3]

theorem simplifyGroups_singletons (l : List UnitFactor) :
    ∀ (c : ℚ) (s : Unit), (∀ f ∈ l, processGroup [f] = some (1, f)) →
      simplifyGroups (l.map fun f => [f]) c s =
        some (c, l.foldl (fun acc f => Unit.mul acc (Unit.from_factor f)) s) := by
  induction l with
  | nil => intro c s _; rfl
  | cons f t ih =>
    intro c s hl
    rw [List.map_cons]
    show (match processGroup [f] with
      | none => (none : Option (ℚ × Unit))
      | some (v, t2) =>
          simplifyGroups (t.map fun f => [f]) (c * v)
            (Unit.mul s (Unit.from_factor t2))) = _
    rw [hl f (List.mem_cons_self f t)]
    show simplifyGroups (t.map fun f => [f]) (c * 1) (Unit.mul s (Unit.from_factor f)) = _
    rw [mul_one, List.foldl_cons]
    exact ih c (Unit.mul s (Unit.from_factor f)) fun g hg => hl g (List.mem_cons_of_mem _ hg)

/-! ### Claim C6: idempotence of full_simplify (corrected)

A derived unit with conversion factor zero makes full_simplify produce a
zero-valued quantity with a non-scalar unit, which the second pass collapses
to a scalar: full_simplify is not idempotent on such quantities. -/

/-- C6 counterexample: full_simplify of the quantity one of the unit w times
meter (w derived over meter with conversion factor zero) yields zero times
meter squared, but a second application collapses that to the scalar zero, so
applying full_simplify twice differs from applying it once. -/
theorem c6_counterexample_zero_factor :
    Quantity.full_simplify_opt ⟨1, Unit.mul zeroFactorUnit Unit.meter⟩ =
      some ⟨0, canonicalize (Unit.power Unit.meter 2)⟩ ∧
    Quantity.full_simplify_opt ⟨0, canonicalize (Unit.power Unit.meter 2)⟩ =
      some ⟨0, Unit.scalar⟩ ∧
    (⟨0, Unit.scalar⟩ : Quantity) ≠ ⟨0, canonicalize (Unit.power Unit.meter 2)⟩ := by decide

theorem WS_sum_flatten (cs : List (List UnitFactor)) (k : Pfx × UnitIdentifier) :
    (cs.map fun c => WS c k).sum = WS cs.flatten k := by
  induction cs with
  | nil => rfl
  | cons c cs ih => rw [List.map_cons, List.sum_cons, ih, List.flatten_cons, WS_append]

theorem canon_nil_of_content_zero {l : Unit} (hl : IsCanon l)
    (h0 : ∀ k, content l k = 0) : l = [] := by
  cases l with
  | nil => rfl
  | cons f t =>
    have h1 : content (f :: t) f.mergeKey = f.exponent :=
      content_mem_unique hl.2.1 (by simp)
    rw [h0 f.mergeKey] at h1
    exact absurd h1.symm (hl.2.2 f (by simp))

/-- full_simplify on a scalar-unit quantity returns the quantity itself. -/
theorem full_simplify_opt_scalar {r : Quantity} (hu : r.unit = Unit.scalar) :
    r.full_simplify_opt = some r := by
  have hok : r.convert_to Unit.scalar = .ok ⟨r.value, Unit.scalar⟩ := by
    rw [Quantity.convert_to_eq,
      if_pos (Or.inl (show Unit.unitEq r.unit Unit.scalar by rw [hu]; exact rfl))]
  show (match r.convert_to Unit.scalar with
    | Res.ok scalar_result => some scalar_result
    | Res.err _ => (simplifyGroups (chunkByKey (canonicalize r.unit)) 1 Unit.scalar).map
        fun p => (⟨r.value * p.1, canonicalize p.2⟩ : Quantity)) = some r
  rw [hok]
  show some (⟨r.value, Unit.scalar⟩ : Quantity) = some r
  rw [show (⟨r.value, Unit.scalar⟩ : Quantity) = r by rw [← hu]]

/-- C6, corrected: Quantity::full_simplify is idempotent on every result that
is nonzero or scalar.  The claim's unconditional idempotence fails: a derived
unit with conversion factor zero yields a zero-valued non-scalar result that a
second pass collapses to a scalar (see the counterexample); on results with
nonzero value, and on scalar results, a second full_simplify is the
identity. -/
theorem c6_full_simplify_idempotent_amended (q r : Quantity)
    (h : q.full_simplify_opt = some r) (hr : r.value ≠ 0 ∨ r.unit = Unit.scalar) :
    r.full_simplify_opt = some r := by
  by_cases hu : r.unit = Unit.scalar
  · exact full_simplify_opt_scalar hu
  have hv : r.value ≠ 0 := hr.resolve_right hu
  have h0 : (match q.convert_to Unit.scalar with
    | Res.ok scalar_result => some scalar_result
    | Res.err _ => (simplifyGroups (chunkByKey (canonicalize q.unit)) 1 Unit.scalar).map
        fun p => (⟨q.value * p.1, canonicalize p.2⟩ : Quantity)) = some r := h
  cases hsc : q.convert_to Unit.scalar with
  | ok s =>
    rw [hsc] at h0
    have h1 : some s = some r := h0
    have h2 : s.unit = Unit.scalar := convert_to_ok_unit q Unit.scalar s hsc
    rw [Option.some.inj h1] at h2
    exact absurd h2 hu
  | err e =>
    rw [hsc] at h0
    have h1 : (simplifyGroups (chunkByKey (canonicalize q.unit)) 1 Unit.scalar).map
        (fun p => (⟨q.value * p.1, canonicalize p.2⟩ : Quantity)) = some r := h0
    cases hsg : simplifyGroups (chunkByKey (canonicalize q.unit)) 1 Unit.scalar with
    | none =>
      rw [hsg] at h1
      exact absurd h1 (by simp)
    | some p =>
      obtain ⟨C, S⟩ := p
      rw [hsg] at h1
      have h1s : some (⟨q.value * C, canonicalize S⟩ : Quantity) = some r := h1
      have hre : (⟨q.value * C, canonicalize S⟩ : Quantity) = r := Option.some.inj h1s
      have hru : r.unit = canonicalize S := by rw [← hre]
      obtain ⟨ts, hf, hS⟩ := simplifyGroups_factors _ _ _ _ _ hsg
      have hcanon := canonicalize_isCanon q.unit
      have hchp := chunkByKey_pairwise hcanon.1
      have hQts : ts.Pairwise fun a b => a.unit_id.sort_key ≠ b.unit_id.sort_key := by
        refine pairwise_of_forall2 ?_ hf hchp
        intro g1 t1 g2 t2 hR1 hR2 hP
        obtain ⟨v1, hp1⟩ := hR1
        obtain ⟨v2, hp2⟩ := hR2
        obtain ⟨rep1, conv1, hrep1, ht1, -, -⟩ := processGroup_some hp1
        obtain ⟨rep2, conv2, hrep2, ht2, -, -⟩ := processGroup_some hp2
        obtain ⟨f1, hf1, hk1⟩ := mem_canonicalize_key g1 rep1 (maxByLast_mem _ _ _ hrep1)
        obtain ⟨f2, hf2, hk2⟩ := mem_canonicalize_key g2 rep2 (maxByLast_mem _ _ _ hrep2)
        have e1 : t1.unit_id = f1.unit_id := by
          rw [ht1, pgTarget_unit_id]
          exact congrArg Prod.snd hk1
        have e2 : t2.unit_id = f2.unit_id := by
          rw [ht2, pgTarget_unit_id]
          exact congrArg Prod.snd hk2
        rw [e1, e2]
        exact hP f1 hf1 f2 hf2
      have hSc := canonicalize_isCanon S
      have hmatch : ∀ f ∈ canonicalize S, ∃ t ∈ ts, f.mergeKey = t.mergeKey ∧
          t.exponent ≠ 0 := by
        intro f hfm
        have hcon : content (canonicalize S) f.mergeKey = f.exponent :=
          content_mem_unique hSc.2.1 hfm
        have hfe : f.exponent ≠ 0 := hSc.2.2 f hfm
        have hsum : content S f.mergeKey = (ts.map fun t => content [t] f.mergeKey).sum := by
          rw [hS, content_foldl_factor,
            show content Unit.scalar f.mergeKey = 0 from rfl, zero_add]
        by_contra hno
        push_neg at hno
        have hz : ∀ x ∈ ts.map fun t => content [t] f.mergeKey, x = 0 := by
          intro x hx
          rw [List.mem_map] at hx
          obtain ⟨t, htm, hxe⟩ := hx
          rw [← hxe, content_singleton]
          by_cases hkk : t.mergeKey = f.mergeKey
          · rw [if_pos hkk]
            exact hno t htm hkk.symm
          · rw [if_neg hkk]
        have hS0 : content S f.mergeKey = 0 := by
          rw [hsum]
          exact List.sum_eq_zero hz
        rw [congrFun (content_canonicalize S) f.mergeKey, hS0] at hcon
        exact hfe hcon.symm
      have hpairS : (canonicalize S).Pairwise fun a b =>
          a.unit_id.sort_key ≠ b.unit_id.sort_key := by
        refine hSc.2.1.imp_of_mem ?_
        intro a b ha hb hmk hkab
        obtain ⟨ta, hta, hka, htea⟩ := hmatch a ha
        obtain ⟨tb, htb, hkb, hteb⟩ := hmatch b hb
        have e1 : ta.unit_id = a.unit_id := (congrArg Prod.snd hka).symm
        have e2 : tb.unit_id = b.unit_id := (congrArg Prod.snd hkb).symm
        have hkt : ta.unit_id.sort_key = tb.unit_id.sort_key := by rw [e1, e2, hkab]
        have hsymm : Symmetric fun a b : UnitFactor =>
            a.unit_id.sort_key ≠ b.unit_id.sort_key := fun x y hxy e => hxy e.symm
        by_cases hee : ta = tb
        · exact hmk (by rw [hka, hee, ← hkb])
        · exact (hQts.forall hsymm hta htb hee) hkt
      have hrem2 : ∀ f ∈ canonicalize S, removed_exponent f ≠ 0 := by
        intro f hfm
        obtain ⟨t, htm, hk, hte⟩ := hmatch f hfm
        have e1 : f.unit_id = t.unit_id := congrArg Prod.snd hk
        obtain ⟨g1, hg1, v1, hp1⟩ := forall2_mem_right hf t htm
        obtain ⟨rep, conv, hrep, ht, -, -⟩ := processGroup_some hp1
        have h2 : removed_exponent rep ≠ 0 :=
          pgTarget_removed_ne_zero (by rw [← ht]; exact hte)
        have h3 : removed_exponent f = removed_exponent t := by
          unfold removed_exponent
          rw [e1]
        have h4 : removed_exponent t = removed_exponent rep := by rw [ht]; exact rfl
        rw [h3, h4]
        exact h2
      have hsing : ∀ f ∈ canonicalize S, processGroup [f] = some (1, f) := fun f hfm =>
        processGroup_singleton (hSc.2.2 f hfm) (hrem2 f hfm)
      have hWS : ∀ k, WS r.unit k = WS q.unit k := by
        intro k
        rw [hru, congrFun (WS_canonicalize S) k, simplifyGroups_WS _ _ _ _ _ hsg k,
          show WS Unit.scalar k = 0 from rfl, zero_add, WS_sum_flatten, chunkByKey_flatten,
          congrFun (WS_canonicalize q.unit) k]
      have hbase : (canonicalize r.unit).to_base_unit_representation.1 ≠ [] := by
        have hqbase := convert_to_scalar_err_base hsc
        intro hnil
        apply hqbase
        have hW0 : ∀ k, content ((canonicalize q.unit).to_base_unit_representation.1) k = 0 := by
          intro k
          rw [congrFun (content_to_base (canonicalize q.unit)) k,
            congrFun (WS_canonicalize q.unit) k, ← hWS k]
          have hcb := congrFun (content_to_base (canonicalize r.unit)) k
          rw [hnil, show content ([] : Unit) k = 0 from rfl] at hcb
          rw [← congrFun (WS_canonicalize r.unit) k, ← hcb]
        exact canon_nil_of_content_zero (canonicalize_isCanon _) hW0
      have hscr : r.convert_to Unit.scalar = .err (.IncompatibleUnits r.unit Unit.scalar) :=
        convert_to_scalar_err_of_base hv hbase
      have hcrr : canonicalize r.unit = canonicalize S := by rw [hru, canonicalize_idem]
      have hchunkr : chunkByKey (canonicalize r.unit) = (canonicalize S).map fun f => [f] := by
        rw [hcrr]
        exact chunkByKey_of_pairwise hpairS
      have hsimpr : simplifyGroups (chunkByKey (canonicalize r.unit)) 1 Unit.scalar =
          some (1, (canonicalize S).foldl
            (fun acc f => Unit.mul acc (Unit.from_factor f)) Unit.scalar) := by
        rw [hchunkr]
        exact simplifyGroups_singletons _ 1 Unit.scalar hsing
      have hfold : canonicalize ((canonicalize S).foldl
          (fun acc f => Unit.mul acc (Unit.from_factor f)) Unit.scalar) = canonicalize S := by
        have hcc : content ((canonicalize S).foldl
            (fun acc f => Unit.mul acc (Unit.from_factor f)) Unit.scalar)
            = content (canonicalize S) := by
          funext k
          rw [content_foldl_factor, content_sum_singletons,
            show content Unit.scalar k = 0 from rfl, zero_add]
        rw [canonicalize_eq_of_content hcc, canonicalize_idem]
      show (match r.convert_to Unit.scalar with
        | Res.ok scalar_result => some scalar_result
        | Res.err _ => (simplifyGroups (chunkByKey (canonicalize r.unit)) 1 Unit.scalar).map
            fun p => (⟨r.value * p.1, canonicalize p.2⟩ : Quantity)) = some r
      rw [hscr]
      show (simplifyGroups (chunkByKey (canonicalize r.unit)) 1 Unit.scalar).map
          (fun p => (⟨r.value * p.1, canonicalize p.2⟩ : Quantity)) = some r
      rw [hsimpr]
      show some (⟨r.value * 1, canonicalize ((canonicalize S).foldl
          (fun acc f => Unit.mul acc (Unit.from_factor f)) Unit.scalar)⟩ : Quantity) = some r
      rw [hfold, mul_one, ← hru]

/-- Witness for the corrected C6 theorem: the quantity two meters is a
full_simplify fixed point with nonzero value. -/
theorem c6_full_simplify_idempotent_amended_witness :
    Quantity.full_simplify_opt ⟨2, Unit.meter⟩ = some (⟨2, Unit.meter⟩ : Quantity) ∧
    ((⟨2, Unit.meter⟩ : Quantity).value ≠ 0 ∨
      (⟨2, Unit.meter⟩ : Quantity).unit = Unit.scalar) ∧
    Quantity.full_simplify_opt ⟨2, Unit.meter⟩ = some (⟨2, Unit.meter⟩ : Quantity) :=
  ⟨by decide, Or.inl (by decide),
    c6_full_simplify_idempotent_amended ⟨2, Unit.meter⟩ ⟨2, Unit.meter⟩ (by decide)
      (Or.inl (by decide))⟩

end Numbat
